import Mathlib

/-! VideoFifo: a timestamp-ordered frame buffer

A shallow embedding of `foleys::VideoFifo` (src/Basics/foleys_VideoFifo.cpp).

Modelling conventions

* `std::map<int64_t, juce::Image>` is a list of (key, image) pairs; the map keeps its
  entries in strictly ascending key order, which is the predicate `keysAscending`.
* A map iterator is a position in that list: `begin()` is `0`, `end()` is the length,
  `--it` is `it - 1`, `erase (first, last)` drops the positions `first .. last - 1`.
* `int64_t` values are integers; the one `int64_t` addition in the source,
  `key + defaultDuration`, wraps around at 64 bits (`wrapInt64`), and the conversions to
  `int` in `getNumAvailableFrames` wrap around at 32 bits (`toInt`).
* `double` values are the type `Double`: a finite value, an infinity or a NaN. A finite
  value is a rational; it is a binary64 number when `IsBinary64` holds of it. Products,
  quotients and conversions from integers are rounded as IEEE 754 binary64 arithmetic
  rounds them, to the nearest value with ties to even, with gradual underflow and with
  overflow to an infinity (`roundBinary64`, `Double.ofRat`). The sign of a zero is not
  represented: the source divides only by a converted `int`, never by a negative zero,
  and compares with `<=`, which does not see the sign.
* Passing a `double` where the map expects its `int64_t` key converts it by truncation
  toward zero. C++ leaves the conversion undefined when the truncated value does not fit
  (or the value is an infinity or a NaN); `Double.toInt64` then takes the result of the
  x86-64 conversion instruction, `INT64_MIN`.
* The lock is not modelled: every operation is one atomic step on the state.
-/

namespace foleys

/-! ## The embedding -/

/-- Pixel formats of `juce::Image`. -/
inductive PixelFormat where
  | UnknownFormat
  | RGB
  | ARGB
  | SingleChannel
  deriving DecidableEq, Repr

/-- The pixel storage an image handle refers to. The buffer never looks at `pixels`. -/
structure ImagePixelData where
  pixelFormat : PixelFormat
  width : Int
  height : Int
  pixels : List Nat
  deriving DecidableEq, Repr

/-- The type `juce::Image`: a handle that is null or refers to pixel storage. -/
structure Image where
  data : Option ImagePixelData
  deriving DecidableEq, Repr

namespace Image

/-- The default-constructed `juce::Image()`: the null image. -/
def null : Image := ⟨none⟩

/-- The test `juce::Image::isNull`. -/
def isNull (image : Image) : Bool := image.data.isNone

/-- The constructor `juce::Image (format, width, height, clearImage)`: a new image with
its own storage of the given size; the contents before any drawing are represented by
the empty pixel list. -/
def create (format : PixelFormat) (width height : Int) (_clearImage : Bool) : Image :=
  ⟨some { pixelFormat := format, width := width, height := height, pixels := [] }⟩

/-- The accessor `juce::Image::getWidth`: zero for the null image. -/
def getWidth (image : Image) : Int :=
  match image.data with
  | none => 0
  | some d => d.width

/-- The accessor `juce::Image::getHeight`: zero for the null image. -/
def getHeight (image : Image) : Int :=
  match image.data with
  | none => 0
  | some d => d.height

end Image

/-- Modelled from the spec: the declaration of the frame size is not in the sources;
it has a width and a height (spec section 6). -/
structure Size where
  width : Int
  height : Int
  deriving DecidableEq, Repr

/-- Modelled from the spec: the declaration of `VideoStreamSettings` is not in the
sources; it holds the frame size, the timebase (ticks per second) and the default
duration (ticks per frame), both integers (spec section 6). -/
structure VideoStreamSettings where
  frameSize : Size
  defaultDuration : Int
  timebase : Int
  deriving DecidableEq, Repr

/-- A stored frame: the entry type of the map, key first. -/
abbrev Frame := Int × Image

/-- Modelled from the spec: the class declaration of `VideoFifo` is not in the sources;
its members are the ordered map `videoFrames`, `lastViewedFrame`, `reverse` and
`settings` (spec section 3). -/
structure VideoFifo where
  videoFrames : List Frame
  lastViewedFrame : Int
  reverse : Bool
  settings : VideoStreamSettings
  deriving DecidableEq, Repr

/-- The map invariant: entries are in strictly ascending key order (so keys are unique). -/
def keysAscending (frames : List Frame) : Prop :=
  frames.Pairwise (fun a b => a.1 < b.1)

instance (frames : List Frame) : Decidable (keysAscending frames) := by
  unfold keysAscending; infer_instance

/-- Truncation toward zero, the rounding of a conversion from `double` to an integer. -/
def truncate (x : ℚ) : Int :=
  if 0 ≤ x then ⌊x⌋ else ⌈x⌉

/-- Rounding to the nearest integer, ties to the even one. -/
def roundHalfEven (x : ℚ) : Int :=
  if x - ⌊x⌋ < 1 / 2 then ⌊x⌋
  else if 1 / 2 < x - ⌊x⌋ then ⌊x⌋ + 1
  else if ⌊x⌋ % 2 = 0 then ⌊x⌋ else ⌊x⌋ + 1

/-- The exponent of the binary64 spacing around `q`: 52 below the exponent of the
leading bit of `q`, and never below the subnormal spacing `2^-1074`. -/
def quantum (q : ℚ) : Int :=
  max (Int.log 2 |q| - 52) (-1074)

/-- The binary64 rounding of a rational, before the overflow test: the nearest multiple
of the spacing around `q`, ties to the even multiple. -/
def roundBinary64 (q : ℚ) : ℚ :=
  roundHalfEven (q / 2 ^ quantum q) * 2 ^ quantum q

/-- The type `double`: a finite value, an infinity or a NaN. The finite values that
occur as a `double` are the binary64 numbers (`IsBinary64`); every arithmetic operation
below returns such a value. -/
inductive Double where
  | finite (value : ℚ)
  | posInf
  | negInf
  | nan
  deriving DecidableEq, Repr

/-- The smallest value of `int64_t`. -/
def INT64_MIN : Int := -2 ^ 63

/-- The wrap-around of an integer value to `int64_t`: the two's complement result of an
`int64_t` addition (C++ leaves a signed overflow undefined). -/
def wrapInt64 (n : Int) : Int :=
  (n + 2 ^ 63) % 2 ^ 64 - 2 ^ 63

namespace Double

/-- The `double` nearest to a rational: the binary64 rounding, or an infinity when the
rounded value reaches `2^1024`. -/
def ofRat (q : ℚ) : Double :=
  if 2 ^ 1024 ≤ roundBinary64 q then posInf
  else if roundBinary64 q ≤ -2 ^ 1024 then negInf
  else finite (roundBinary64 q)

/-- The conversion of an `int` or `int64_t` to `double`. -/
def ofInt (n : Int) : Double :=
  ofRat n

/-- The product of two `double` values. -/
def mul : Double → Double → Double
  | finite a, finite b => ofRat (a * b)
  | finite a, posInf => if a = 0 then nan else if 0 < a then posInf else negInf
  | finite a, negInf => if a = 0 then nan else if 0 < a then negInf else posInf
  | posInf, finite b => if b = 0 then nan else if 0 < b then posInf else negInf
  | negInf, finite b => if b = 0 then nan else if 0 < b then negInf else posInf
  | posInf, posInf => posInf
  | posInf, negInf => negInf
  | negInf, posInf => negInf
  | negInf, negInf => posInf
  | nan, _ => nan
  | _, nan => nan

/-- The quotient of two `double` values; a zero divisor is the positive zero. -/
def div : Double → Double → Double
  | finite a, finite b =>
    if b = 0 then (if a = 0 then nan else if 0 < a then posInf else negInf)
    else ofRat (a / b)
  | finite _, posInf => finite 0
  | finite _, negInf => finite 0
  | posInf, finite b => if 0 ≤ b then posInf else negInf
  | negInf, finite b => if 0 ≤ b then negInf else posInf
  | posInf, posInf => nan
  | posInf, negInf => nan
  | negInf, posInf => nan
  | negInf, negInf => nan
  | nan, _ => nan
  | _, nan => nan

/-- The comparison `<=` of two `double` values: false when either is a NaN. -/
def le : Double → Double → Bool
  | finite a, finite b => decide (a ≤ b)
  | finite _, posInf => true
  | negInf, finite _ => true
  | negInf, negInf => true
  | negInf, posInf => true
  | posInf, posInf => true
  | _, _ => false

/-- The conversion of a `double` to `int64_t`: truncation toward zero when the result
fits; otherwise (undefined in C++) the x86-64 result `INT64_MIN`. -/
def toInt64 : Double → Int
  | finite v => if -2 ^ 63 ≤ truncate v ∧ truncate v < 2 ^ 63 then truncate v else INT64_MIN
  | _ => INT64_MIN

end Double

/-- The rational `q` is a binary64 number: rounding it gives `q` itself. -/
def IsBinary64 (q : ℚ) : Prop :=
  Double.ofRat q = Double.finite q

/-- The conversion of this `double` to `int64_t` is defined: the value is finite and its
truncation fits. -/
def InInt64Range (d : Double) : Prop :=
  ∃ v, d = Double.finite v ∧ -2 ^ 63 ≤ truncate v ∧ truncate v < 2 ^ 63

/-- The largest value of `int`. -/
def INT_MAX : Int := 2 ^ 31 - 1

/-- The conversion of an integer value to the 32-bit `int`, with wrap-around. -/
def toInt (n : Int) : Int :=
  (n + 2 ^ 31) % 2 ^ 32 - 2 ^ 31

/-- The lookup `std::map::lower_bound`: the position of the first entry whose key is not
less than `key`, or the end position. -/
def lower_bound : List Frame → Int → Nat
  | [], _ => 0
  | f :: rest, key => if f.1 < key then lower_bound rest key + 1 else 0

/-- The lookup `std::map::find`: the position of the entry with this key, or the end
position. -/
def find : List Frame → Int → Nat
  | [], _ => 0
  | f :: rest, key => if f.1 = key then 0 else find rest key + 1

/-- The assignment `map [key] = image`: insert in key order, or overwrite. -/
def insertOrAssign : List Frame → Int → Image → List Frame
  | [], key, image => [(key, image)]
  | f :: rest, key, image =>
    if key < f.1 then (key, image) :: f :: rest
    else if key = f.1 then (key, image) :: rest
    else f :: insertOrAssign rest key image

/-- The range erase `std::map::erase (first, last)`. -/
def eraseRange (frames : List Frame) (first last : Nat) : List Frame :=
  frames.take first ++ frames.drop last

/-- The method `VideoFifo::pushVideoFrame` -/
def pushVideoFrame (s : VideoFifo) (image : Image) (timestamp : Int) : VideoFifo :=
  { s with videoFrames := insertOrAssign s.videoFrames timestamp image }

/-- The method `VideoFifo::popVideoFrame` -/
def popVideoFrame (s : VideoFifo) : Frame × VideoFifo :=
  if s.videoFrames.isEmpty then ((0, Image.null), s)
  else
    match s.videoFrames[0]? with
    | some frame => ((frame.1, frame.2), { s with videoFrames := s.videoFrames.eraseIdx 0 })
    | none => ((0, Image.null), s)

/-- The key the time lookups search from: the argument `timestamp * settings.timebase`
of `lower_bound`, a `double` product, converted to the map's key type `int64_t`. -/
def lookupKey (s : VideoFifo) (timestamp : Double) : Int :=
  Double.toInt64 (Double.mul timestamp (Double.ofInt s.settings.timebase))

/-- The local `frameEnd` of `isFrameAvailable` for a found frame with the given key:
`double (key + settings.defaultDuration) / settings.timebase`. -/
def frameEnd (s : VideoFifo) (key : Int) : Double :=
  Double.div (Double.ofInt (wrapInt64 (key + s.settings.defaultDuration)))
    (Double.ofInt s.settings.timebase)

/-- The method `VideoFifo::getVideoFrame`; the write through the `const_cast` is the
state change. -/
def getVideoFrame (s : VideoFifo) (timestamp : Double) : Frame × VideoFifo :=
  let vf := lower_bound s.videoFrames (lookupKey s timestamp)
  match s.videoFrames[vf]? with
  | some f => ((f.1, f.2), { s with lastViewedFrame := f.1 })
  | none => ((0, Image.null), s)

/-- The method `VideoFifo::isFrameAvailable` -/
def isFrameAvailable (s : VideoFifo) (timestamp : Double) : Bool :=
  let vf := lower_bound s.videoFrames (lookupKey s timestamp)
  match s.videoFrames[vf]? with
  | some f => Double.le timestamp (frameEnd s f.1)
  | none => false

/-- The method `VideoFifo::getFrameCountForTime` -/
def getFrameCountForTime (s : VideoFifo) (time : Double) : Int :=
  let vf := lower_bound s.videoFrames (lookupKey s time)
  match s.videoFrames[vf]? with
  | some f => f.1
  | none => -1

/-- The method `VideoFifo::size` -/
def size (s : VideoFifo) : Nat :=
  s.videoFrames.length

/-- The method `VideoFifo::getNumAvailableFrames` -/
def getNumAvailableFrames (s : VideoFifo) : Int :=
  let it := lower_bound s.videoFrames s.lastViewedFrame
  if it = s.videoFrames.length then
    toInt (min (s.videoFrames.length : Int) INT_MAX)
  else
    toInt ((s.videoFrames.length : Int) - it)

/-- The method `VideoFifo::getLowestTimeCode` -/
def getLowestTimeCode (s : VideoFifo) : Int :=
  if s.videoFrames.isEmpty then 0
  else
    match s.videoFrames[0]? with
    | some f => f.1
    | none => 0

/-- The method `VideoFifo::getHighestTimeCode` -/
def getHighestTimeCode (s : VideoFifo) : Int :=
  if s.videoFrames.isEmpty then 0
  else
    let it := s.videoFrames.length - 1
    match s.videoFrames[it]? with
    | some f => f.1
    | none => 0

/-- The method `VideoFifo::getOldestFrameForRecycling`: the returned image and the new state. -/
def getOldestFrameForRecycling (s : VideoFifo) : Image × VideoFifo :=
  let taken : Image × List Frame :=
    if s.reverse = false then
      match s.videoFrames[0]? with
      | some f =>
        if f.1 < s.lastViewedFrame then (f.2, s.videoFrames.eraseIdx 0)
        else (Image.null, s.videoFrames)
      | none => (Image.null, s.videoFrames)
    else if ¬ s.videoFrames.isEmpty then
      let iterator := s.videoFrames.length - 1
      match s.videoFrames[iterator]? with
      | some f =>
        if f.1 > s.lastViewedFrame then (f.2, s.videoFrames.eraseIdx iterator)
        else (Image.null, s.videoFrames)
      | none => (Image.null, s.videoFrames)
    else (Image.null, s.videoFrames)
  let image :=
    if taken.1.isNull then
      Image.create PixelFormat.ARGB s.settings.frameSize.width s.settings.frameSize.height false
    else taken.1
  (image, { s with videoFrames := taken.2 })

/-- The method `VideoFifo::clear` -/
def clear (s : VideoFifo) : VideoFifo :=
  { s with videoFrames := [], lastViewedFrame := -1 }

/-- The method `VideoFifo::clearFramesOlderThan` -/
def clearFramesOlderThan (s : VideoFifo) (count : Int) : VideoFifo :=
  let current := find s.videoFrames count
  if current = 0 then s
  else { s with videoFrames := eraseRange s.videoFrames 0 (current - 1) }

/-- The keys stored in the buffer. -/
def storedKeys (s : VideoFifo) : List Int :=
  s.videoFrames.map Prod.fst

/-- A test image of the given size carrying a tag, to tell images apart. -/
def sampleImage (tag : Nat) : Image :=
  ⟨some { pixelFormat := PixelFormat.ARGB, width := 4, height := 2, pixels := [tag] }⟩

/-- A buffer holding `sampleImage k` at each of the given keys. -/
def sampleFifo (keys : List Int) (lastViewedFrame : Int) (reverse : Bool)
    (defaultDuration timebase : Int) : VideoFifo :=
  { videoFrames := keys.map (fun k => (k, sampleImage k.toNat))
    lastViewedFrame := lastViewedFrame
    reverse := reverse
    settings := { frameSize := { width := 16, height := 9 }
                  defaultDuration := defaultDuration
                  timebase := timebase } }

/-- The key `k` is the smallest stored key that is at least `x`. -/
def IsSmallestKeyAtLeast (s : VideoFifo) (x : ℚ) (k : Int) : Prop :=
  k ∈ storedKeys s ∧ x ≤ (k : ℚ) ∧ ∀ k' ∈ storedKeys s, x ≤ (k' : ℚ) → k ≤ k'

/-- A buffer whose lowest and highest frames hold null images, with `lastViewedFrame`
at the middle key 5. -/
def nullEndsFifo (reverse : Bool) : VideoFifo :=
  { videoFrames := [(1, Image.null), (5, sampleImage 5), (9, Image.null)]
    lastViewedFrame := 5
    reverse := reverse
    settings := { frameSize := { width := 16, height := 9 }
                  defaultDuration := 1
                  timebase := 1 } }

/-- The frame `f` is the stored frame with the lowest key. -/
def IsLowestFrame (s : VideoFifo) (f : Frame) : Prop :=
  f ∈ s.videoFrames ∧ ∀ g ∈ s.videoFrames, f.1 ≤ g.1

/-- The frame `f` is the stored frame with the highest key. -/
def IsHighestFrame (s : VideoFifo) (f : Frame) : Prop :=
  f ∈ s.videoFrames ∧ ∀ g ∈ s.videoFrames, g.1 ≤ f.1

/-- The frame `f` qualifies for eviction: playing forward it is the lowest-key frame and
its key is below `lastViewedFrame`; playing in reverse it is the highest-key frame and
its key is above `lastViewedFrame`. -/
def QualifiesForEviction (s : VideoFifo) (f : Frame) : Prop :=
  if s.reverse = false then IsLowestFrame s f ∧ f.1 < s.lastViewedFrame
  else IsHighestFrame s f ∧ s.lastViewedFrame < f.1

/-- A run of `getVideoFrame` calls, one per time, with no other operation in between:
the state after the last call. -/
def getVideoFrames (s : VideoFifo) : List Double → VideoFifo
  | [] => s
  | t :: rest => getVideoFrames (getVideoFrame s t).2 rest

/-- The state after `n` consecutive calls of `getOldestFrameForRecycling`. -/
def recycleTimes : Nat → VideoFifo → VideoFifo
  | 0, s => s
  | n + 1, s => recycleTimes n (getOldestFrameForRecycling s).2

/-- A forward-playing buffer holding null images at the keys `0, 1, ..., n - 1`, with
`lastViewedFrame = 0`. -/
def denseFifo (n : Nat) : VideoFifo :=
  { videoFrames := (List.range n).map (fun (i : Nat) => ((i : Int), Image.null))
    lastViewedFrame := 0
    reverse := false
    settings := { frameSize := { width := 16, height := 9 }
                  defaultDuration := 1
                  timebase := 1 } }

/-! ## Auxiliary lemmas -/

/-! ## Conversions and binary64 rounding -/

theorem truncate_intCast (n : Int) : truncate (n : ℚ) = n := by
  unfold truncate
  split <;> simp

theorem le_truncate {n : Int} {x : ℚ} (h : (n : ℚ) ≤ x) : n ≤ truncate x := by
  unfold truncate
  split
  · exact Int.le_floor.mpr h
  · have h1 : (n : ℚ) ≤ (⌈x⌉ : ℚ) := le_trans h (Int.le_ceil x)
    exact_mod_cast h1

theorem truncate_eq_of_nonneg {n : Int} {x : ℚ} (h0 : 0 ≤ x) (h1 : (n : ℚ) ≤ x)
    (h2 : x < (n : ℚ) + 1) : truncate x = n := by
  unfold truncate
  rw [if_pos h0]
  exact Int.floor_eq_iff.mpr ⟨h1, h2⟩

theorem truncate_le {n : Int} {x : ℚ} (h : x ≤ (n : ℚ)) : truncate x ≤ n := by
  unfold truncate
  split
  · have h1 : ((⌊x⌋ : Int) : ℚ) ≤ (n : ℚ) := le_trans (Int.floor_le x) h
    exact_mod_cast h1
  · exact Int.ceil_le.mpr h

theorem truncate_mono {x y : ℚ} (h : x ≤ y) : truncate x ≤ truncate y := by
  unfold truncate
  by_cases hx : 0 ≤ x
  · have hy : 0 ≤ y := le_trans hx h
    rw [if_pos hx, if_pos hy]
    exact Int.floor_mono h
  · rw [if_neg hx]
    by_cases hy : 0 ≤ y
    · rw [if_pos hy]
      have h1 : ⌈x⌉ ≤ 0 := Int.ceil_le.mpr (by simpa using le_of_lt (not_le.mp hx))
      have h2 : 0 ≤ ⌊y⌋ := Int.floor_nonneg.mpr hy
      omega
    · rw [if_neg hy]
      exact Int.ceil_mono h

theorem roundHalfEven_intCast (n : Int) : roundHalfEven (n : ℚ) = n := by
  unfold roundHalfEven
  simp

theorem floor_le_roundHalfEven (x : ℚ) : ⌊x⌋ ≤ roundHalfEven x := by
  unfold roundHalfEven
  split_ifs <;> omega

theorem roundHalfEven_le_floor_add_one (x : ℚ) : roundHalfEven x ≤ ⌊x⌋ + 1 := by
  unfold roundHalfEven
  split_ifs <;> omega

theorem roundHalfEven_mono {x y : ℚ} (h : x ≤ y) : roundHalfEven x ≤ roundHalfEven y := by
  have hfl : ⌊x⌋ ≤ ⌊y⌋ := Int.floor_mono h
  rcases lt_or_eq_of_le hfl with hlt | heq
  · have h1 := roundHalfEven_le_floor_add_one x
    have h2 := floor_le_roundHalfEven y
    omega
  · unfold roundHalfEven
    rw [← heq]
    have hfrac : x - ⌊x⌋ ≤ y - ⌊x⌋ := by linarith
    split_ifs <;> first | omega | (exfalso; linarith)

theorem roundHalfEven_neg (x : ℚ) : roundHalfEven (-x) = -roundHalfEven x := by
  by_cases hint : x = (⌊x⌋ : ℚ)
  · have h1 : -x = ((-⌊x⌋ : Int) : ℚ) := by push_cast; linarith
    rw [h1, roundHalfEven_intCast, hint, roundHalfEven_intCast]
    simp
  · have hlo : (⌊x⌋ : ℚ) < x := lt_of_le_of_ne (Int.floor_le x) (Ne.symm hint)
    have hhi : x < (⌊x⌋ : ℚ) + 1 := Int.lt_floor_add_one x
    have hfl : ⌊-x⌋ = -⌊x⌋ - 1 := by
      rw [Int.floor_eq_iff]
      push_cast
      constructor <;> linarith
    unfold roundHalfEven
    rw [hfl]
    push_cast
    split_ifs <;> first | omega | (exfalso; linarith)

theorem quantum_neg (q : ℚ) : quantum (-q) = quantum q := by
  unfold quantum
  rw [abs_neg]

theorem roundBinary64_neg (q : ℚ) : roundBinary64 (-q) = -roundBinary64 q := by
  unfold roundBinary64
  rw [quantum_neg, neg_div, roundHalfEven_neg]
  push_cast
  ring

theorem quantum_ge (q : ℚ) : -1074 ≤ quantum q := by
  unfold quantum
  exact le_max_right _ _

theorem log_sub_le_quantum (q : ℚ) : Int.log 2 |q| - 52 ≤ quantum q := by
  unfold quantum
  exact le_max_left _ _

theorem quantum_mono {x y : ℚ} (hx : 0 < x) (h : x ≤ y) : quantum x ≤ quantum y := by
  unfold quantum
  have hy : 0 < y := lt_of_lt_of_le hx h
  rw [abs_of_pos hx, abs_of_pos hy]
  exact max_le_max (sub_le_sub_right (Int.log_mono_right hx h) _) le_rfl

theorem two_zpow_pos (e : Int) : (0 : ℚ) < 2 ^ e := by positivity

theorem roundBinary64_nonneg {q : ℚ} (h : 0 ≤ q) : 0 ≤ roundBinary64 q := by
  unfold roundBinary64
  have h1 : (0 : ℚ) ≤ q / 2 ^ quantum q := div_nonneg h (le_of_lt (two_zpow_pos _))
  have h2 : roundHalfEven ((0 : Int) : ℚ) ≤ roundHalfEven (q / 2 ^ quantum q) :=
    roundHalfEven_mono (by simpa using h1)
  rw [roundHalfEven_intCast] at h2
  have h3 : (0 : ℚ) ≤ (roundHalfEven (q / 2 ^ quantum q) : ℚ) := by exact_mod_cast h2
  exact mul_nonneg h3 (le_of_lt (two_zpow_pos _))

/-- A positive value whose quantum is above the subnormal one rounds to at least the
bottom of its binade. -/
theorem le_roundBinary64_of_normal {y : ℚ} (hy : 0 < y) (hq : -1074 < quantum y) :
    (2 : ℚ) ^ (quantum y + 52) ≤ roundBinary64 y := by
  have hlog : quantum y = Int.log 2 |y| - 52 := by
    unfold quantum at hq ⊢
    rcases max_cases (Int.log 2 |y| - 52) (-1074) with ⟨h1, _⟩ | ⟨h1, _⟩
    · exact h1
    · rw [h1] at hq
      exact absurd hq (lt_irrefl _)
  have hbase : ((2 : ℕ) : ℚ) ^ Int.log 2 y ≤ y := Int.zpow_log_le_self (by norm_num) hy
  rw [abs_of_pos hy] at hlog
  have hk : Int.log 2 y = quantum y + 52 := by omega
  rw [hk] at hbase
  have hbase2 : (2 : ℚ) ^ (quantum y + 52) ≤ y := by simpa using hbase
  unfold roundBinary64
  have hdiv : (((2 : Int) ^ 52 : Int) : ℚ) ≤ y / 2 ^ quantum y := by
    rw [le_div_iff₀ (two_zpow_pos _)]
    have : (((2 : Int) ^ 52 : Int) : ℚ) * 2 ^ quantum y = (2 : ℚ) ^ (quantum y + 52) := by
      rw [zpow_add₀ (by norm_num : (2 : ℚ) ≠ 0)]
      push_cast
      rw [mul_comm]
      norm_num
    rw [this]
    exact hbase2
  have hr := roundHalfEven_mono hdiv
  rw [roundHalfEven_intCast] at hr
  have hr2 : (((2 : Int) ^ 52 : Int) : ℚ) ≤ (roundHalfEven (y / 2 ^ quantum y) : ℚ) := by
    exact_mod_cast hr
  calc (2 : ℚ) ^ (quantum y + 52)
      = (((2 : Int) ^ 52 : Int) : ℚ) * 2 ^ quantum y := by
        rw [zpow_add₀ (by norm_num : (2 : ℚ) ≠ 0)]
        push_cast
        rw [mul_comm]
        norm_num
    _ ≤ (roundHalfEven (y / 2 ^ quantum y) : ℚ) * 2 ^ quantum y :=
        mul_le_mul_of_nonneg_right hr2 (le_of_lt (two_zpow_pos _))

/-- A positive value rounds to at most the bottom of any binade whose quantum is above
its own. -/
theorem roundBinary64_le_of_quantum_lt {x : ℚ} (hx : 0 < x) {P : Int} (hP : quantum x < P) :
    roundBinary64 x ≤ (2 : ℚ) ^ (P + 52) := by
  have hlt : x < ((2 : ℕ) : ℚ) ^ (Int.log 2 x + 1) := Int.lt_zpow_succ_log_self (by norm_num) x
  have hlog := log_sub_le_quantum x
  rw [abs_of_pos hx] at hlog
  have hexp : Int.log 2 x + 1 ≤ P + 52 := by omega
  have hx2 : x ≤ (2 : ℚ) ^ (P + 52) := by
    have h1 : ((2 : ℕ) : ℚ) ^ (Int.log 2 x + 1) ≤ ((2 : ℕ) : ℚ) ^ (P + 52) :=
      zpow_le_zpow_right₀ (by norm_num) hexp
    have h2 := le_of_lt (lt_of_lt_of_le hlt h1)
    simpa using h2
  obtain ⟨N, hN⟩ : ∃ N : ℕ, (N : Int) = P + 52 - quantum x :=
    ⟨(P + 52 - quantum x).toNat, by rw [Int.toNat_of_nonneg]; omega⟩
  have hpow : (2 : ℚ) ^ (P + 52) = (((2 : Int) ^ N : Int) : ℚ) * 2 ^ quantum x := by
    have : P + 52 = (N : Int) + quantum x := by omega
    rw [this, zpow_add₀ (by norm_num : (2 : ℚ) ≠ 0), zpow_natCast]
    push_cast
    rfl
  unfold roundBinary64
  have hdiv : x / 2 ^ quantum x ≤ (((2 : Int) ^ N : Int) : ℚ) := by
    rw [div_le_iff₀ (two_zpow_pos _), ← hpow]
    exact hx2
  have hr := roundHalfEven_mono hdiv
  rw [roundHalfEven_intCast] at hr
  have hr2 : (roundHalfEven (x / 2 ^ quantum x) : ℚ) ≤ (((2 : Int) ^ N : Int) : ℚ) := by
    exact_mod_cast hr
  rw [hpow]
  exact mul_le_mul_of_nonneg_right hr2 (le_of_lt (two_zpow_pos _))

theorem roundBinary64_mono_pos {x y : ℚ} (hx : 0 < x) (h : x ≤ y) :
    roundBinary64 x ≤ roundBinary64 y := by
  have hy : 0 < y := lt_of_lt_of_le hx h
  rcases lt_or_eq_of_le (quantum_mono hx h) with hlt | heq
  · have h1 := roundBinary64_le_of_quantum_lt hx hlt
    have h2 := le_roundBinary64_of_normal hy (lt_of_le_of_lt (quantum_ge x) hlt)
    exact le_trans h1 h2
  · unfold roundBinary64
    rw [heq]
    have hdiv : x / 2 ^ quantum y ≤ y / 2 ^ quantum y :=
      div_le_div_of_nonneg_right h (le_of_lt (two_zpow_pos _))
    have hr := roundHalfEven_mono hdiv
    have hr2 : (roundHalfEven (x / 2 ^ quantum y) : ℚ) ≤ (roundHalfEven (y / 2 ^ quantum y) : ℚ) := by
      exact_mod_cast hr
    exact mul_le_mul_of_nonneg_right hr2 (le_of_lt (two_zpow_pos _))

/-- Rounding to binary64 is monotone. -/
theorem roundBinary64_mono {x y : ℚ} (h : x ≤ y) : roundBinary64 x ≤ roundBinary64 y := by
  rcases lt_trichotomy 0 x with hx | hx | hx
  · exact roundBinary64_mono_pos hx h
  · rw [← hx]
    have h0 : roundBinary64 0 = 0 := by
      unfold roundBinary64
      simp [roundHalfEven]
    rw [h0]
    exact roundBinary64_nonneg (by rw [hx]; exact h)
  · rcases lt_or_le y 0 with hy | hy
    · have h1 := roundBinary64_mono_pos (neg_pos.mpr hy) (neg_le_neg h)
      rw [roundBinary64_neg, roundBinary64_neg] at h1
      linarith
    · have h1 := roundBinary64_nonneg (le_of_lt (neg_pos.mpr hx))
      rw [roundBinary64_neg] at h1
      have h2 := roundBinary64_nonneg hy
      linarith

theorem roundBinary64_zero : roundBinary64 0 = 0 := by
  unfold roundBinary64
  simp [roundHalfEven]

/-- Rounding leaves `m * 2^e` alone when `m` fits in 53 bits and `e` is not below the
smallest exponent. -/
theorem roundBinary64_eq_self (m e : Int) (hm : |m| < 2 ^ 53) (he : -1074 ≤ e) :
    roundBinary64 ((m : ℚ) * 2 ^ e) = (m : ℚ) * 2 ^ e := by
  by_cases hm0 : m = 0
  · subst hm0
    simp [roundBinary64_zero]
  · have hmq : (0 : ℚ) < |(m : ℚ)| := abs_pos.mpr (by exact_mod_cast hm0)
    have hpos : (0 : ℚ) < |(m : ℚ) * 2 ^ e| := by
      rw [abs_mul, abs_of_pos (two_zpow_pos e)]
      exact mul_pos hmq (two_zpow_pos e)
    have hmlt : |(m : ℚ)| < 2 ^ 53 := by exact_mod_cast hm
    have hlt : |(m : ℚ) * 2 ^ e| < ((2 : ℕ) : ℚ) ^ (53 + e) := by
      rw [abs_mul, abs_of_pos (two_zpow_pos e)]
      have : ((2 : ℕ) : ℚ) ^ (53 + e) = 2 ^ 53 * 2 ^ e := by
        rw [zpow_add₀ (by norm_num)]
        norm_num
      rw [this]
      exact mul_lt_mul_of_pos_right hmlt (two_zpow_pos e)
    have hlog : Int.log 2 |(m : ℚ) * 2 ^ e| < 53 + e :=
      (Int.lt_zpow_iff_log_lt (by norm_num) hpos).mp hlt
    have hq : quantum ((m : ℚ) * 2 ^ e) ≤ e := by
      unfold quantum
      exact max_le (by omega) he
    unfold roundBinary64
    generalize quantum ((m : ℚ) * 2 ^ e) = p at hq ⊢
    obtain ⟨N, hN⟩ : ∃ N : ℕ, (N : Int) = e - p :=
      ⟨(e - p).toNat, by rw [Int.toNat_of_nonneg]; omega⟩
    have hsplit : (2 : ℚ) ^ e = (((2 : Int) ^ N : Int) : ℚ) * 2 ^ p := by
      have : e = (N : Int) + p := by omega
      rw [this, zpow_add₀ (by norm_num : (2 : ℚ) ≠ 0), zpow_natCast]
      push_cast
      rfl
    have hdiv : (m : ℚ) * 2 ^ e / 2 ^ p = ((m * (2 : Int) ^ N : Int) : ℚ) := by
      rw [div_eq_iff (ne_of_gt (two_zpow_pos _)), hsplit]
      push_cast
      ring
    rw [hdiv, roundHalfEven_intCast, hsplit]
    push_cast
    ring

theorem isBinary64_of_eq (q : ℚ) (m e : Int) (hm : |m| < 2 ^ 53) (he : -1074 ≤ e)
    (he2 : e ≤ 971) (hq : q = (m : ℚ) * 2 ^ e) : IsBinary64 q := by
  have hround := roundBinary64_eq_self m e hm he
  have hmlt : |(m : ℚ)| < 2 ^ 53 := by exact_mod_cast hm
  have hbound : |q| < 2 ^ 1024 := by
    rw [hq, abs_mul, abs_of_pos (two_zpow_pos e)]
    have h1 : (2 : ℚ) ^ e ≤ 2 ^ (971 : Int) := zpow_le_zpow_right₀ (by norm_num) he2
    have h2 : (2 : ℚ) ^ 1024 = 2 ^ 53 * 2 ^ (971 : Int) := by norm_num
    rw [h2]
    calc |(m : ℚ)| * 2 ^ e ≤ |(m : ℚ)| * 2 ^ (971 : Int) :=
          mul_le_mul_of_nonneg_left h1 (abs_nonneg _)
      _ < 2 ^ 53 * 2 ^ (971 : Int) :=
          mul_lt_mul_of_pos_right hmlt (two_zpow_pos _)
  have hb := abs_lt.mp hbound
  unfold IsBinary64 Double.ofRat
  rw [← hq] at hround
  rw [hround]
  rw [if_neg (not_le.mpr hb.2), if_neg (not_le.mpr hb.1)]

theorem isBinary64_intCast (n : Int) (hn : |n| < 2 ^ 53) : IsBinary64 (n : ℚ) :=
  isBinary64_of_eq n n 0 hn (by norm_num) (by norm_num) (by simp)

theorem ofInt_eq_finite (n : Int) (hn : |n| < 2 ^ 53) : Double.ofInt n = Double.finite n :=
  isBinary64_intCast n hn

theorem IsBinary64.round_eq {q : ℚ} (h : IsBinary64 q) : roundBinary64 q = q := by
  unfold IsBinary64 Double.ofRat at h
  split_ifs at h
  exact Double.finite.inj h

theorem IsBinary64.lt_top {q : ℚ} (h : IsBinary64 q) : q < 2 ^ 1024 := by
  have hr := h.round_eq
  unfold IsBinary64 Double.ofRat at h
  split_ifs at h with h1 h2
  rw [hr] at h1
  exact not_le.mp h1

theorem IsBinary64.bot_lt {q : ℚ} (h : IsBinary64 q) : -2 ^ 1024 < q := by
  have hr := h.round_eq
  unfold IsBinary64 Double.ofRat at h
  split_ifs at h with h1 h2
  rw [hr] at h2
  exact not_le.mp h2

/-- A binary64 value below a rational stays below (or equal to) its rounding. -/
theorem le_ofRat_of_le {t x : ℚ} (ht : IsBinary64 t) (h : t ≤ x) :
    Double.le (Double.finite t) (Double.ofRat x) = true := by
  have hmono := roundBinary64_mono h
  rw [ht.round_eq] at hmono
  unfold Double.ofRat
  split_ifs with h1 h2
  · rfl
  · exfalso
    have := ht.bot_lt
    linarith
  · simpa [Double.le] using hmono

/-! ## The time lookups -/

theorem getVideoFrame_of_some {s : VideoFifo} {time : Double} {f : Frame}
    (h : s.videoFrames[lower_bound s.videoFrames (lookupKey s time)]? = some f) :
    getVideoFrame s time = ((f.1, f.2), { s with lastViewedFrame := f.1 }) := by
  unfold getVideoFrame
  simp [h]

theorem getVideoFrame_of_none {s : VideoFifo} {time : Double}
    (h : s.videoFrames[lower_bound s.videoFrames (lookupKey s time)]? = none) :
    getVideoFrame s time = ((0, Image.null), s) := by
  unfold getVideoFrame
  simp [h]

theorem getVideoFrame_frames (s : VideoFifo) (time : Double) :
    (getVideoFrame s time).2.videoFrames = s.videoFrames
      ∧ (getVideoFrame s time).2.settings = s.settings
      ∧ (getVideoFrame s time).2.reverse = s.reverse := by
  cases h : s.videoFrames[lower_bound s.videoFrames (lookupKey s time)]? with
  | none => rw [getVideoFrame_of_none h]; exact ⟨rfl, rfl, rfl⟩
  | some f => rw [getVideoFrame_of_some h]; exact ⟨rfl, rfl, rfl⟩

theorem ofRat_eq_finite {q v : ℚ} (h : Double.ofRat q = Double.finite v) :
    v = roundBinary64 q := by
  unfold Double.ofRat at h
  split_ifs at h
  exact (Double.finite.inj h).symm

theorem wrapInt64_of_range {n : Int} (h1 : -2 ^ 63 ≤ n) (h2 : n < 2 ^ 63) :
    wrapInt64 n = n := by
  unfold wrapInt64
  norm_num at h1 h2 ⊢
  omega

theorem toInt64_finite {v : ℚ} (h1 : -2 ^ 63 ≤ truncate v) (h2 : truncate v < 2 ^ 63) :
    Double.toInt64 (Double.finite v) = truncate v := by
  simp only [Double.toInt64]
  rw [if_pos ⟨h1, h2⟩]

theorem toInt64_of_inRange {d : Double} {v : ℚ} (hd : d = Double.finite v)
    (h : InInt64Range d) : Double.toInt64 d = truncate v := by
  obtain ⟨w, hw, h1, h2⟩ := h
  rw [hd] at hw
  have : v = w := Double.finite.inj hw
  subst this
  rw [hd]
  exact toInt64_finite h1 h2

/-- The lookup key of a finite time whose product with the timebase is a binary64 number
with a truncation that fits `int64_t`: the truncated product. -/
theorem lookupKey_finite (s : VideoFifo) (t : ℚ) (hT : |s.settings.timebase| < 2 ^ 53)
    (hprod : IsBinary64 (t * s.settings.timebase))
    (h1 : -2 ^ 63 ≤ truncate (t * s.settings.timebase))
    (h2 : truncate (t * s.settings.timebase) < 2 ^ 63) :
    lookupKey s (Double.finite t) = truncate (t * s.settings.timebase) := by
  unfold lookupKey
  rw [ofInt_eq_finite _ hT]
  show Double.toInt64 (Double.ofRat (t * s.settings.timebase)) = _
  rw [hprod]
  exact toInt64_finite h1 h2

/-- The end of the display window of a key, when the sum and the quotient are exact. -/
theorem frameEnd_exact (s : VideoFifo) (key : Int)
    (hsum : |key + s.settings.defaultDuration| < 2 ^ 53)
    (hT : |s.settings.timebase| < 2 ^ 53) (hT0 : s.settings.timebase ≠ 0)
    (hq : IsBinary64 (((key + s.settings.defaultDuration : Int) : ℚ) / s.settings.timebase)) :
    frameEnd s key
      = Double.finite (((key + s.settings.defaultDuration : Int) : ℚ) / s.settings.timebase) := by
  have hb := abs_lt.mp hsum
  unfold frameEnd
  rw [wrapInt64_of_range (by norm_num at hb ⊢; omega) (by norm_num at hb ⊢; omega),
    ofInt_eq_finite _ hsum, ofInt_eq_finite _ hT]
  have hTq : (s.settings.timebase : ℚ) ≠ 0 := by exact_mod_cast hT0
  show (if (s.settings.timebase : ℚ) = 0 then _ else Double.ofRat _) = _
  rw [if_neg hTq]
  exact hq

theorem mul_eq_finite {a b : Double} {v : ℚ} (h : Double.mul a b = Double.finite v) :
    ∃ x y, a = Double.finite x ∧ b = Double.finite y ∧ v = roundBinary64 (x * y) := by
  cases a <;> cases b <;> simp only [Double.mul] at h
  case finite.finite x y => exact ⟨x, y, rfl, rfl, ofRat_eq_finite h⟩
  all_goals (first | (split_ifs at h) | cases h)

theorem roundBinary64_one : roundBinary64 1 = 1 := by
  have := roundBinary64_eq_self 1 0 (by norm_num) (by norm_num)
  simpa using this

theorem lookupKey_congr {s1 s2 : VideoFifo} (h : s1.settings = s2.settings) (t : Double) :
    lookupKey s1 t = lookupKey s2 t := by
  unfold lookupKey
  rw [h]

/-- With a positive timebase the lookup key is monotone in the time, as long as the
conversion to `int64_t` is defined. -/
theorem lookupKey_mono (s : VideoFifo) {a b : Double} (hT : 0 < s.settings.timebase)
    (hab : Double.le a b = true)
    (ha : InInt64Range (Double.mul a (Double.ofInt s.settings.timebase)))
    (hb : InInt64Range (Double.mul b (Double.ofInt s.settings.timebase))) :
    lookupKey s a ≤ lookupKey s b := by
  obtain ⟨va, hva, _, _⟩ := id ha
  obtain ⟨vb, hvb, _, _⟩ := id hb
  obtain ⟨x, r, hx, hr, hvx⟩ := mul_eq_finite hva
  obtain ⟨y, r2, hy, hr2, hvy⟩ := mul_eq_finite hvb
  rw [hr] at hr2
  have hrr : r = r2 := Double.finite.inj hr2
  subst hrr
  have hrval : r = roundBinary64 s.settings.timebase := ofRat_eq_finite hr
  have hrpos : 0 < r := by
    have h1 : (1 : ℚ) ≤ (s.settings.timebase : ℚ) := by exact_mod_cast hT
    have h2 := roundBinary64_mono h1
    rw [roundBinary64_one] at h2
    rw [hrval]
    linarith
  have hxy : x ≤ y := by
    rw [hx, hy] at hab
    simpa [Double.le] using hab
  have hv : va ≤ vb := by
    rw [hvx, hvy]
    exact roundBinary64_mono (mul_le_mul_of_nonneg_right hxy (le_of_lt hrpos))
  unfold lookupKey
  rw [toInt64_of_inRange hva ha, toInt64_of_inRange hvb hb]
  exact truncate_mono hv

/-- The lookup key on a buffer with timebase 1, for a binary64 time whose truncation
fits `int64_t`: the truncated time. -/
theorem lookupKey_timebase_one (s : VideoFifo) (t : ℚ) (hT : s.settings.timebase = 1)
    (ht : IsBinary64 t) (h1 : -2 ^ 63 ≤ truncate t) (h2 : truncate t < 2 ^ 63) :
    lookupKey s (Double.finite t) = truncate t := by
  have hprod : t * (s.settings.timebase : ℚ) = t := by rw [hT]; simp
  rw [lookupKey_finite s t (by rw [hT]; norm_num) (by rw [hprod]; exact ht)
    (by rw [hprod]; exact h1) (by rw [hprod]; exact h2), hprod]

theorem lookupKey_timebase_one_intCast (s : VideoFifo) (n : Int)
    (hT : s.settings.timebase = 1) (hn : |n| < 2 ^ 53) :
    lookupKey s (Double.finite n) = n := by
  have hb := abs_lt.mp hn
  rw [lookupKey_timebase_one s n hT (isBinary64_intCast n hn)
    (by rw [truncate_intCast]; norm_num at hb ⊢; omega)
    (by rw [truncate_intCast]; norm_num at hb ⊢; omega), truncate_intCast]

theorem isBinary64_half (m : Int) (hm : |m| < 2 ^ 53) : IsBinary64 ((m : ℚ) / 2) :=
  isBinary64_of_eq _ m (-1) hm (by norm_num) (by norm_num) (by
    rw [zpow_neg_one]
    ring)

theorem mul_timebase_one (s : VideoFifo) (t : ℚ) (hT : s.settings.timebase = 1)
    (ht : IsBinary64 t) :
    Double.mul (Double.finite t) (Double.ofInt s.settings.timebase) = Double.finite t := by
  rw [hT, ofInt_eq_finite 1 (by norm_num)]
  show Double.ofRat (t * ((1 : Int) : ℚ)) = _
  have : t * ((1 : Int) : ℚ) = t := by simp
  rw [this]
  exact ht

theorem inInt64Range_timebase_one_intCast (s : VideoFifo) (n : Int)
    (hT : s.settings.timebase = 1) (hn : |n| < 2 ^ 53) :
    InInt64Range (Double.mul (Double.finite n) (Double.ofInt s.settings.timebase)) := by
  have hb := abs_lt.mp hn
  refine ⟨n, mul_timebase_one s n hT (isBinary64_intCast n hn), ?_, ?_⟩
  · rw [truncate_intCast]; norm_num at hb ⊢; omega
  · rw [truncate_intCast]; norm_num at hb ⊢; omega

/-- The lookup key on a buffer with timebase 1 for a binary64 time of `2^63` or more:
the conversion does not fit and gives `INT64_MIN`. -/
theorem lookupKey_timebase_one_too_large (s : VideoFifo) (t : ℚ)
    (hT : s.settings.timebase = 1) (ht : IsBinary64 t) (h : 2 ^ 63 ≤ truncate t) :
    lookupKey s (Double.finite t) = INT64_MIN := by
  unfold lookupKey
  rw [mul_timebase_one s t hT ht]
  simp only [Double.toInt64]
  rw [if_neg (by
    rintro ⟨_, h2⟩
    omega)]

/-- The end of the display window on a buffer with timebase 1. -/
theorem frameEnd_timebase_one (s : VideoFifo) (key : Int) (hT : s.settings.timebase = 1)
    (hsum : |key + s.settings.defaultDuration| < 2 ^ 53) :
    frameEnd s key = Double.finite ((key + s.settings.defaultDuration : Int) : ℚ) := by
  have hq : ((key + s.settings.defaultDuration : Int) : ℚ) / (s.settings.timebase : ℚ)
      = ((key + s.settings.defaultDuration : Int) : ℚ) := by
    rw [hT]
    simp
  rw [frameEnd_exact s key hsum (by rw [hT]; norm_num) (by rw [hT]; norm_num)
    (by rw [hq]; exact isBinary64_intCast _ hsum), hq]

theorem isFrameAvailable_of_some {s : VideoFifo} {time : Double} {f : Frame}
    (h : s.videoFrames[lower_bound s.videoFrames (lookupKey s time)]? = some f) :
    isFrameAvailable s time = Double.le time (frameEnd s f.1) := by
  unfold isFrameAvailable
  simp [h]

theorem isFrameAvailable_of_none {s : VideoFifo} {time : Double}
    (h : s.videoFrames[lower_bound s.videoFrames (lookupKey s time)]? = none) :
    isFrameAvailable s time = false := by
  unfold isFrameAvailable
  simp [h]

theorem abs_lt_of_pos_of_lt {n : Int} (h0 : 0 < n) (h : n < 2 ^ 31) : |n| < 2 ^ 53 := by
  rw [abs_of_pos h0]
  norm_num at h ⊢
  omega

/-- The product of a finite time and a positive `int` timebase, as the code forms it. -/
theorem mul_timebase (s : VideoFifo) (t : ℚ) (hT : 0 < s.settings.timebase)
    (hTint : s.settings.timebase < 2 ^ 31) :
    Double.mul (Double.finite t) (Double.ofInt s.settings.timebase)
      = Double.ofRat (t * s.settings.timebase) := by
  rw [ofInt_eq_finite _ (abs_lt_of_pos_of_lt hT hTint)]
  rfl

/-- A time below `K/T` has a lookup key of at most `K`, for a key `K` that is a binary64
number. -/
theorem lookupKey_le_of_lt (s : VideoFifo) (t : ℚ) (K : Int) (hT : 0 < s.settings.timebase)
    (hTint : s.settings.timebase < 2 ^ 31) (hK : |K| < 2 ^ 53)
    (h : t * s.settings.timebase ≤ K) : lookupKey s (Double.finite t) ≤ K := by
  have hb := abs_lt.mp hK
  have hmin : INT64_MIN ≤ K := by
    unfold INT64_MIN
    norm_num at hb ⊢
    omega
  have hr := roundBinary64_mono h
  rw [(isBinary64_intCast K hK).round_eq] at hr
  unfold lookupKey
  rw [mul_timebase s t hT hTint]
  unfold Double.ofRat
  split_ifs with h1 h2
  · exact hmin
  · exact hmin
  · simp only [Double.toInt64]
    split_ifs
    · exact truncate_le hr
    · exact hmin

/-- The end of the display window as a rounded quotient, for a positive `int` timebase
and a sum that is a binary64 number. -/
theorem frameEnd_exact_of_pos (s : VideoFifo) (key : Int)
    (hsum : |key + s.settings.defaultDuration| < 2 ^ 53)
    (hT : 0 < s.settings.timebase) (hTint : s.settings.timebase < 2 ^ 31) :
    frameEnd s key
      = Double.ofRat (((key + s.settings.defaultDuration : Int) : ℚ) / s.settings.timebase) := by
  have hb := abs_lt.mp hsum
  have hTq : (s.settings.timebase : ℚ) ≠ 0 := by
    have : (0 : ℚ) < (s.settings.timebase : ℚ) := by exact_mod_cast hT
    exact ne_of_gt this
  unfold frameEnd
  rw [wrapInt64_of_range (by norm_num at hb ⊢; omega) (by norm_num at hb ⊢; omega),
    ofInt_eq_finite _ hsum, ofInt_eq_finite _ (abs_lt_of_pos_of_lt hT hTint)]
  show (if (s.settings.timebase : ℚ) = 0 then _ else Double.ofRat _) = _
  rw [if_neg hTq]

/-! ## Lookups in the ordered map -/

theorem lower_bound_le_length (l : List Frame) (k : Int) : lower_bound l k ≤ l.length := by
  induction l with
  | nil => simp [lower_bound]
  | cons f rest ih =>
    simp only [lower_bound]
    split
    · simpa using ih
    · simp

theorem getElem?_lower_bound (l : List Frame) (k : Int) :
    l[lower_bound l k]? = l.find? (fun f => decide (k ≤ f.1)) := by
  induction l with
  | nil => simp [lower_bound]
  | cons f rest ih =>
    simp only [lower_bound]
    by_cases h : f.1 < k
    · have h2 : ¬ k ≤ f.1 := not_le.mpr h
      simp [h, h2, ih]
    · have h2 : k ≤ f.1 := not_lt.mp h
      simp [h, h2]

theorem keysAscending_cons {f : Frame} {rest : List Frame} :
    keysAscending (f :: rest) ↔ (∀ g ∈ rest, f.1 < g.1) ∧ keysAscending rest := by
  simp [keysAscending]

/-- What the lower-bound search finds is a stored frame with key at least `k`, and no
stored frame with key at least `k` has a smaller key. -/
theorem lower_bound_some {l : List Frame} {k : Int} {f : Frame} (hl : keysAscending l)
    (h : l[lower_bound l k]? = some f) :
    f ∈ l ∧ k ≤ f.1 ∧ ∀ g ∈ l, k ≤ g.1 → f.1 ≤ g.1 := by
  induction l with
  | nil => simp [lower_bound] at h
  | cons a rest ih =>
    obtain ⟨ha, hrest⟩ := keysAscending_cons.mp hl
    simp only [lower_bound] at h
    by_cases hak : a.1 < k
    · simp only [hak, if_true, List.getElem?_cons_succ] at h
      obtain ⟨h1, h2, h3⟩ := ih hrest h
      refine ⟨List.mem_cons_of_mem _ h1, h2, ?_⟩
      intro g hg hkg
      rcases List.mem_cons.mp hg with rfl | hg
      · omega
      · exact h3 g hg hkg
    · simp only [hak, if_false, List.getElem?_cons_zero, Option.some.injEq] at h
      subst h
      refine ⟨List.mem_cons_self _ _, not_lt.mp hak, ?_⟩
      intro g hg _
      rcases List.mem_cons.mp hg with rfl | hg
      · exact le_refl _
      · exact le_of_lt (ha g hg)

/-- The lower-bound search ends at the end position exactly when every key is below `k`. -/
theorem lower_bound_none {l : List Frame} {k : Int} :
    l[lower_bound l k]? = none ↔ ∀ g ∈ l, g.1 < k := by
  rw [getElem?_lower_bound, List.find?_eq_none]
  simp

theorem mem_storedKeys {s : VideoFifo} {k : Int} :
    k ∈ storedKeys s ↔ ∃ f ∈ s.videoFrames, f.1 = k := by
  simp [storedKeys]

theorem keysAscending_append {a b : List Frame} (h : keysAscending (a ++ b)) :
    keysAscending a ∧ keysAscending b ∧ ∀ x ∈ a, ∀ y ∈ b, x.1 < y.1 := by
  unfold keysAscending at *
  exact List.pairwise_append.mp h

/-- Where `find` lands for a stored key: the entries before it have smaller keys, the
entries after it larger ones. -/
theorem find_split {l : List Frame} {count : Int} (hl : keysAscending l)
    (hc : ∃ f ∈ l, f.1 = count) :
    ∃ (before after : List Frame) (image : Image),
      l = before ++ (count, image) :: after ∧ find l count = before.length
      ∧ (∀ g ∈ before, g.1 < count) ∧ (∀ g ∈ after, count < g.1) := by
  induction l with
  | nil => simp at hc
  | cons a rest ih =>
    obtain ⟨ha, hrest⟩ := keysAscending_cons.mp hl
    by_cases hak : a.1 = count
    · refine ⟨[], rest, a.2, ?_, ?_, ?_, ?_⟩
      · simp [← hak]
      · simp [find, hak]
      · simp
      · intro g hg
        have := ha g hg
        omega
    · have hc2 : ∃ f ∈ rest, f.1 = count := by
        obtain ⟨f, hf, hfc⟩ := hc
        rcases List.mem_cons.mp hf with rfl | hf
        · exact absurd hfc hak
        · exact ⟨f, hf, hfc⟩
      obtain ⟨before, after, image, h1, h2, h3, h4⟩ := ih hrest hc2
      refine ⟨a :: before, after, image, ?_, ?_, ?_, h4⟩
      · simp [h1]
      · simp [find, hak, h2]
      · intro g hg
        rcases List.mem_cons.mp hg with rfl | hg
        · have : (count, image) ∈ rest := by rw [h1]; simp
          have := ha _ this
          simpa using this
        · exact h3 g hg

/-- Keeping the keys from `p` upward in an ascending list whose first part lies below `p`
and whose second part does not. -/
theorem filter_from_key {a b : List Frame} {p : Int} (ha : ∀ g ∈ a, g.1 < p)
    (hb : ∀ g ∈ b, p ≤ g.1) :
    (a ++ b).filter (fun f => decide (p ≤ f.1)) = b := by
  rw [List.filter_append]
  have h1 : a.filter (fun f => decide (p ≤ f.1)) = [] := by
    rw [List.filter_eq_nil_iff]
    intro g hg
    have := ha g hg
    simp only [decide_eq_true_eq]
    omega
  have h2 : b.filter (fun f => decide (p ≤ f.1)) = b := by
    rw [List.filter_eq_self]
    intro g hg
    simpa using hb g hg
  rw [h1, h2, List.nil_append]

theorem getElem?_last_concat (init : List Frame) (z : Frame) :
    (init ++ [z])[(init ++ [z]).length - 1]? = some z := by
  simp

theorem eraseIdx_last_concat (init : List Frame) (z : Frame) :
    (init ++ [z]).eraseIdx ((init ++ [z]).length - 1) = init := by
  simp [List.eraseIdx_append_of_length_le]

/-- Replacing a null image by a non-null one leaves a non-null image. -/
theorem isNull_ite_create (image fresh : Image) (h : fresh.isNull = false) :
    (if image.isNull = true then fresh else image).isNull = false := by
  cases hn : image.isNull with
  | true => simpa using h
  | false => simpa using hn

/-- The forward branch of `getOldestFrameForRecycling` on a non-empty buffer. -/
theorem recycling_forward_cons (s : VideoFifo) (a : Frame) (rest : List Frame)
    (hr : s.reverse = false) (hf : s.videoFrames = a :: rest) :
    getOldestFrameForRecycling s =
      if a.1 < s.lastViewedFrame then
        ((if a.2.isNull then
            Image.create PixelFormat.ARGB s.settings.frameSize.width
              s.settings.frameSize.height false
          else a.2), { s with videoFrames := rest })
      else
        (Image.create PixelFormat.ARGB s.settings.frameSize.width
          s.settings.frameSize.height false, s) := by
  obtain ⟨frames, lvf, rev, settings⟩ := s
  simp only at hr hf
  subst hr hf
  unfold getOldestFrameForRecycling
  by_cases h : a.1 < lvf
  · simp [h]
  · simp [h, Image.null, Image.isNull]

/-- The reverse branch of `getOldestFrameForRecycling` on a non-empty buffer. -/
theorem recycling_reverse_concat (s : VideoFifo) (init : List Frame) (z : Frame)
    (hr : s.reverse = true) (hf : s.videoFrames = init ++ [z]) :
    getOldestFrameForRecycling s =
      if z.1 > s.lastViewedFrame then
        ((if z.2.isNull then
            Image.create PixelFormat.ARGB s.settings.frameSize.width
              s.settings.frameSize.height false
          else z.2), { s with videoFrames := init })
      else
        (Image.create PixelFormat.ARGB s.settings.frameSize.width
          s.settings.frameSize.height false, s) := by
  obtain ⟨frames, lvf, rev, settings⟩ := s
  simp only at hr hf
  subst hr hf
  unfold getOldestFrameForRecycling
  simp only [getElem?_last_concat, eraseIdx_last_concat]
  by_cases h : z.1 > lvf
  · simp [h]
  · simp [h, Image.null, Image.isNull]

/-- Either branch of `getOldestFrameForRecycling` on the empty buffer. -/
theorem recycling_nil (s : VideoFifo) (hf : s.videoFrames = []) :
    getOldestFrameForRecycling s =
      (Image.create PixelFormat.ARGB s.settings.frameSize.width
        s.settings.frameSize.height false, s) := by
  obtain ⟨frames, lvf, rev, settings⟩ := s
  simp only at hf
  subst hf
  unfold getOldestFrameForRecycling
  cases rev <;> simp [Image.null, Image.isNull]

/-- In an ascending list the lowest-key frame is the first one. -/
theorem lowest_eq_head {a f : Frame} {rest : List Frame} (hl : keysAscending (a :: rest))
    (hf : f ∈ a :: rest) (hlow : ∀ g ∈ a :: rest, f.1 ≤ g.1) : f = a := by
  obtain ⟨ha, _⟩ := keysAscending_cons.mp hl
  rcases List.mem_cons.mp hf with rfl | hf
  · rfl
  · have h1 := ha f hf
    have h2 := hlow a (List.mem_cons_self _ _)
    omega

/-- In an ascending list the highest-key frame is the last one. -/
theorem highest_eq_last {z f : Frame} {init : List Frame}
    (hl : keysAscending (init ++ [z])) (hf : f ∈ init ++ [z])
    (hhigh : ∀ g ∈ init ++ [z], g.1 ≤ f.1) : f = z := by
  obtain ⟨_, _, hcross⟩ := keysAscending_append hl
  rcases List.mem_append.mp hf with hf | hf
  · have h1 := hcross f hf z (by simp)
    have h2 := hhigh z (by simp)
    omega
  · simpa using hf

theorem filter_ne_head {a : Frame} {rest : List Frame} (hl : keysAscending (a :: rest)) :
    (a :: rest).filter (fun g => decide (g.1 ≠ a.1)) = rest := by
  obtain ⟨ha, _⟩ := keysAscending_cons.mp hl
  rw [List.filter_cons_of_neg (by simp), List.filter_eq_self]
  intro g hg
  have := ha g hg
  simp only [ne_eq, decide_not, Bool.not_eq_true', decide_eq_false_iff_not]
  omega

theorem filter_ne_last {z : Frame} {init : List Frame} (hl : keysAscending (init ++ [z])) :
    (init ++ [z]).filter (fun g => decide (g.1 ≠ z.1)) = init := by
  obtain ⟨_, _, hcross⟩ := keysAscending_append hl
  rw [List.filter_append, List.filter_cons_of_neg (by simp), List.filter_nil,
    List.append_nil, List.filter_eq_self]
  intro g hg
  have := hcross g hg z (by simp)
  simp only [ne_eq, decide_not, Bool.not_eq_true', decide_eq_false_iff_not]
  omega

theorem toInt_of_lt {n : Int} (h0 : 0 ≤ n) (h1 : n < 2 ^ 31) : toInt n = n := by
  unfold toInt
  norm_num at h1 ⊢
  omega

theorem lower_bound_eq_length_iff {l : List Frame} {k : Int} :
    lower_bound l k = l.length ↔ ∀ g ∈ l, g.1 < k := by
  rw [← lower_bound_none, List.getElem?_eq_none_iff]
  have := lower_bound_le_length l k
  omega

/-- In an ascending list the entries from the lower-bound position to the end are
exactly the entries whose key is at least `k`. -/
theorem length_sub_lower_bound {l : List Frame} (k : Int) (hl : keysAscending l) :
    l.length - lower_bound l k = l.countP (fun f => decide (k ≤ f.1)) := by
  induction l with
  | nil => simp [lower_bound]
  | cons a rest ih =>
    obtain ⟨ha, hrest⟩ := keysAscending_cons.mp hl
    simp only [lower_bound]
    by_cases hak : a.1 < k
    · have hna : ¬ k ≤ a.1 := not_le.mpr hak
      simp only [hak, if_true, List.length_cons, Nat.add_sub_add_right]
      rw [List.countP_cons_of_neg _ _ (by simpa using hna)]
      exact ih hrest
    · have hka : k ≤ a.1 := not_lt.mp hak
      simp only [hak, if_false, Nat.sub_zero]
      symm
      rw [List.countP_eq_length]
      intro g hg
      rcases List.mem_cons.mp hg with rfl | hg
      · simpa using hka
      · have := ha g hg
        simp only [decide_eq_true_eq]
        omega

/-! ## The claims -/

/-- C1 (counterexample): with frames at keys 10, 20, 30, timebase 1 and the time 10.5 (a
binary64 number) the smallest stored key that is at least `t*T = 10.5` is 20, but
`getFrameCountForTime` returns 10. -/
theorem getFrameCountForTime_fraction_counterexample :
    IsBinary64 (21 / 2)
      ∧ IsSmallestKeyAtLeast (sampleFifo [10, 20, 30] (-1) false 1 1)
        ((21 / 2 : ℚ) * ((sampleFifo [10, 20, 30] (-1) false 1 1).settings.timebase : ℚ)) 20
      ∧ getFrameCountForTime (sampleFifo [10, 20, 30] (-1) false 1 1)
          (Double.finite (21 / 2)) = 10 := by
  have hbin : IsBinary64 (21 / 2) := by
    simpa using isBinary64_half 21 (by norm_num)
  have htr : truncate (21 / 2 : ℚ) = 10 :=
    truncate_eq_of_nonneg (by norm_num) (by norm_num) (by norm_num)
  have hk : lookupKey (sampleFifo [10, 20, 30] (-1) false 1 1) (Double.finite (21 / 2)) = 10 := by
    rw [lookupKey_timebase_one _ _ rfl hbin (by rw [htr]; norm_num) (by rw [htr]; norm_num), htr]
  refine ⟨hbin, ⟨by decide, by norm_num [sampleFifo], ?_⟩, ?_⟩
  · intro k hk1 hk2
    simp only [storedKeys, sampleFifo, List.map_cons, List.map_nil, List.mem_cons,
      List.mem_singleton, List.not_mem_nil, or_false] at hk1
    rcases hk1 with rfl | rfl | rfl
    · norm_num [sampleFifo] at hk2
    · decide
    · decide
  · unfold getFrameCountForTime
    rw [hk]
    simp [sampleFifo, lower_bound]

/-- C1 (amended): `getFrameCountForTime (t)` returns the smallest stored key that is at
least the lookup key `c`, and `-1` when no stored key is at least `c`; here `c` is the
`int64_t` that the `double` product `t*T` converts to, which is that product (rounded
to a `double`) truncated toward zero whenever the truncation fits `int64_t`. When `t*T`
is an integer below `2^53` in size (and `T` is an `int`), `c` is `t*T` itself, so the
result is the smallest stored key that is at least `t*T`. -/
theorem getFrameCountForTime_spec (s : VideoFifo) (time : Double)
    (hs : keysAscending s.videoFrames) :
    ((∃ k ∈ storedKeys s, lookupKey s time ≤ k) →
        getFrameCountForTime s time ∈ storedKeys s
        ∧ lookupKey s time ≤ getFrameCountForTime s time
        ∧ ∀ k ∈ storedKeys s, lookupKey s time ≤ k → getFrameCountForTime s time ≤ k)
    ∧ ((∀ k ∈ storedKeys s, k < lookupKey s time) → getFrameCountForTime s time = -1)
    ∧ (∀ v, Double.mul time (Double.ofInt s.settings.timebase) = Double.finite v →
        -2 ^ 63 ≤ truncate v → truncate v < 2 ^ 63 → lookupKey s time = truncate v)
    ∧ (∀ (t : ℚ) (n : Int), time = Double.finite t → |s.settings.timebase| < 2 ^ 31 →
        t * s.settings.timebase = n → |n| < 2 ^ 53 → lookupKey s time = n) := by
  refine ⟨?_, ?_, ?_, ?_⟩
  · rintro ⟨k, hk, hck⟩
    unfold getFrameCountForTime
    simp only
    cases hfind : s.videoFrames[lower_bound s.videoFrames (lookupKey s time)]? with
    | none =>
      exfalso
      obtain ⟨g, hg, rfl⟩ := List.mem_map.mp hk
      have := lower_bound_none.mp hfind g hg
      omega
    | some f =>
      obtain ⟨h1, h2, h3⟩ := lower_bound_some hs hfind
      refine ⟨List.mem_map.mpr ⟨f, h1, rfl⟩, h2, ?_⟩
      intro k' hk' hck'
      obtain ⟨g, hg, rfl⟩ := List.mem_map.mp hk'
      exact h3 g hg hck'
  · intro hall
    unfold getFrameCountForTime
    have hnone : s.videoFrames[lower_bound s.videoFrames (lookupKey s time)]? = none :=
      lower_bound_none.mpr (fun g hg => hall g.1 (List.mem_map.mpr ⟨g, hg, rfl⟩))
    simp [hnone]
  · intro v hv h1 h2
    unfold lookupKey
    rw [hv]
    exact toInt64_finite h1 h2
  · intro t n htime hT hprod hn
    subst htime
    have hb := abs_lt.mp hn
    have hTb := abs_lt.mp hT
    have hT53 : |s.settings.timebase| < 2 ^ 53 := by
      rw [abs_lt]
      constructor
      · norm_num at hTb ⊢; omega
      · norm_num at hTb ⊢; omega
    rw [lookupKey_finite s t hT53 (by rw [hprod]; exact isBinary64_intCast n hn)
      (by rw [hprod, truncate_intCast]; norm_num at hb ⊢; omega)
      (by rw [hprod, truncate_intCast]; norm_num at hb ⊢; omega), hprod, truncate_intCast]

/-- C1 (witness): frames at keys 10, 20, 30 with timebase 1 and time 10.5; the key
returned is at least the lookup key. -/
theorem getFrameCountForTime_spec_witness :
    keysAscending (sampleFifo [10, 20, 30] (-1) false 1 1).videoFrames
      ∧ lookupKey (sampleFifo [10, 20, 30] (-1) false 1 1) (Double.finite (21 / 2))
          ≤ getFrameCountForTime (sampleFifo [10, 20, 30] (-1) false 1 1)
              (Double.finite (21 / 2)) := by
  have hbin : IsBinary64 (21 / 2) := by
    simpa using isBinary64_half 21 (by norm_num)
  have htr : truncate (21 / 2 : ℚ) = 10 :=
    truncate_eq_of_nonneg (by norm_num) (by norm_num) (by norm_num)
  have hk : lookupKey (sampleFifo [10, 20, 30] (-1) false 1 1) (Double.finite (21 / 2)) = 10 := by
    rw [lookupKey_timebase_one _ _ rfl hbin (by rw [htr]; norm_num) (by rw [htr]; norm_num), htr]
  exact ⟨by decide,
    ((getFrameCountForTime_spec (sampleFifo [10, 20, 30] (-1) false 1 1)
      (Double.finite (21 / 2)) (by decide)).1 ⟨20, by decide, by rw [hk]; norm_num⟩).2.1⟩

/-- C2 (counterexample): a single frame at key 10 with default duration 5 and timebase 1;
the time 13 (a binary64 number) lies in the window from 10/1 to 15/1, yet
`isFrameAvailable` returns false: the lower-bound search from 13 finds no frame. -/
theorem isFrameAvailable_window_counterexample :
    10 ∈ storedKeys (sampleFifo [10] (-1) false 5 1)
      ∧ 0 < (sampleFifo [10] (-1) false 5 1).settings.timebase
      ∧ 0 ≤ (sampleFifo [10] (-1) false 5 1).settings.defaultDuration
      ∧ IsBinary64 13
      ∧ ((10 : Int) : ℚ) / (sampleFifo [10] (-1) false 5 1).settings.timebase ≤ 13
      ∧ (13 : ℚ) ≤ ((10 + (sampleFifo [10] (-1) false 5 1).settings.defaultDuration : Int) : ℚ)
            / (sampleFifo [10] (-1) false 5 1).settings.timebase
      ∧ isFrameAvailable (sampleFifo [10] (-1) false 5 1) (Double.finite 13) = false := by
  have hb : IsBinary64 13 := by
    simpa using isBinary64_intCast 13 (by norm_num)
  have hk : lookupKey (sampleFifo [10] (-1) false 5 1) (Double.finite 13) = 13 := by
    simpa using lookupKey_timebase_one_intCast (sampleFifo [10] (-1) false 5 1) 13 rfl
      (by norm_num)
  refine ⟨by decide, by decide, by decide, hb, by norm_num [sampleFifo],
    by norm_num [sampleFifo], ?_⟩
  apply isFrameAvailable_of_none
  rw [hk]
  rfl

/-- C2 (amended): if the buffer stores a frame at key `K`, the timebase `T` is a positive
`int`, and `K` and `K + D` are below `2^53` in size (so that they are binary64 numbers;
no stored key plus `D` overflows `int64_t`), then `isFrameAvailable (time)` is true for
every `double` `time` with `K/T <= time <= (K+D)/T` for which the lower-bound search
finds a frame, that is, for which some stored key is at least the lookup key (the
frame found is then the one at `K` or a later one, and the time is before its end). -/
theorem isFrameAvailable_of_window (s : VideoFifo) (time : ℚ) (K : Int)
    (hs : keysAscending s.videoFrames) (_hK : K ∈ storedKeys s)
    (hT : 0 < s.settings.timebase) (hTint : s.settings.timebase < 2 ^ 31)
    (htime : IsBinary64 time)
    (hKrep : |K| < 2 ^ 53) (hKD : |K + s.settings.defaultDuration| < 2 ^ 53)
    (hsum : ∀ k ∈ storedKeys s, k + s.settings.defaultDuration < 2 ^ 63)
    (hlo : (K : ℚ) / s.settings.timebase ≤ time)
    (hhi : time ≤ ((K + s.settings.defaultDuration : Int) : ℚ) / s.settings.timebase)
    (hfound : ∃ k ∈ storedKeys s, lookupKey s (Double.finite time) ≤ k) :
    isFrameAvailable s (Double.finite time) = true := by
  have hTq : (0 : ℚ) < (s.settings.timebase : ℚ) := by exact_mod_cast hT
  have hKb := abs_lt.mp hKrep
  have hKDb := abs_lt.mp hKD
  have hprodlo : (K : ℚ) ≤ time * s.settings.timebase := (div_le_iff₀ hTq).mp hlo
  have hprodhi : time * s.settings.timebase ≤ ((K + s.settings.defaultDuration : Int) : ℚ) :=
    (le_div_iff₀ hTq).mp hhi
  have hr1 := roundBinary64_mono hprodlo
  rw [(isBinary64_intCast K hKrep).round_eq] at hr1
  have hr2 := roundBinary64_mono hprodhi
  rw [(isBinary64_intCast _ hKD).round_eq] at hr2
  have hKDq : (((K + s.settings.defaultDuration : Int) : ℚ)) < 2 ^ 1024 :=
    (isBinary64_intCast _ hKD).lt_top
  have hKq : -2 ^ 1024 < (K : ℚ) := (isBinary64_intCast K hKrep).bot_lt
  have hofr : Double.ofRat (time * s.settings.timebase)
      = Double.finite (roundBinary64 (time * s.settings.timebase)) := by
    unfold Double.ofRat
    rw [if_neg (by linarith), if_neg (by linarith)]
  have htr1 : K ≤ truncate (roundBinary64 (time * s.settings.timebase)) := le_truncate hr1
  have htr2 : truncate (roundBinary64 (time * s.settings.timebase))
      ≤ K + s.settings.defaultDuration := truncate_le hr2
  have hkey : lookupKey s (Double.finite time)
      = truncate (roundBinary64 (time * s.settings.timebase)) := by
    unfold lookupKey
    rw [mul_timebase s time hT hTint, hofr]
    exact toInt64_finite (by norm_num at hKb ⊢; omega) (by norm_num at hKDb ⊢; omega)
  obtain ⟨k, hk, hck⟩ := hfound
  obtain ⟨g, hg, rfl⟩ := mem_storedKeys.mp hk
  cases hfind : s.videoFrames[lower_bound s.videoFrames
      (lookupKey s (Double.finite time))]? with
  | none =>
    have := lower_bound_none.mp hfind g hg
    omega
  | some f =>
    obtain ⟨hfmem, hf2, _⟩ := lower_bound_some hs hfind
    have hfK : K ≤ f.1 := by
      rw [hkey] at hf2
      omega
    have hfsum := hsum f.1 (mem_storedKeys.mpr ⟨f, hfmem, rfl⟩)
    rw [isFrameAvailable_of_some hfind]
    unfold frameEnd
    rw [wrapInt64_of_range (by norm_num at hKDb ⊢; omega) hfsum,
      ofInt_eq_finite _ (abs_lt_of_pos_of_lt hT hTint)]
    have hsumge : ((K + s.settings.defaultDuration : Int) : ℚ)
        ≤ ((f.1 + s.settings.defaultDuration : Int) : ℚ) := by
      exact_mod_cast (by omega : K + s.settings.defaultDuration ≤ f.1 + s.settings.defaultDuration)
    have hround := roundBinary64_mono hsumge
    rw [(isBinary64_intCast _ hKD).round_eq] at hround
    have hKDlow : -2 ^ 1024 < ((K + s.settings.defaultDuration : Int) : ℚ) :=
      (isBinary64_intCast _ hKD).bot_lt
    unfold Double.ofInt Double.ofRat
    split_ifs with h1 h2
    · simp only [Double.div]
      rw [if_pos (le_of_lt hTq)]
      rfl
    · exfalso
      linarith
    · simp only [Double.div]
      rw [if_neg (ne_of_gt hTq)]
      apply le_ofRat_of_le htime
      rw [le_div_iff₀ hTq]
      linarith

/-- C2 (witness): frames at keys 10 and 20, default duration 5, timebase 1, and the time
12 in the window of the frame at key 10: the search finds the frame at key 20. -/
theorem isFrameAvailable_of_window_witness :
    keysAscending (sampleFifo [10, 20] (-1) false 5 1).videoFrames
      ∧ isFrameAvailable (sampleFifo [10, 20] (-1) false 5 1) (Double.finite 12) = true := by
  have hb : IsBinary64 12 := by
    simpa using isBinary64_intCast 12 (by norm_num)
  have hk : lookupKey (sampleFifo [10, 20] (-1) false 5 1) (Double.finite 12) = 12 := by
    simpa using lookupKey_timebase_one_intCast (sampleFifo [10, 20] (-1) false 5 1) 12 rfl
      (by norm_num)
  exact ⟨by decide,
    isFrameAvailable_of_window (sampleFifo [10, 20] (-1) false 5 1) 12 10 (by decide)
      (by decide) (by decide) (by decide) hb (by decide) (by decide) (by decide)
      (by norm_num [sampleFifo]) (by norm_num [sampleFifo])
      ⟨20, by decide, by rw [hk]; norm_num⟩⟩

/-- C3 (counterexample): a single frame at key 10 with default duration 5 and timebase 1;
the time 3 (a binary64 number) is before `K/T = 10`, yet `isFrameAvailable` returns
true. -/
theorem isFrameAvailable_before_frame_counterexample :
    (sampleFifo [10] (-1) false 5 1).videoFrames = [(10, sampleImage 10)]
      ∧ 0 < (sampleFifo [10] (-1) false 5 1).settings.timebase
      ∧ 0 ≤ (sampleFifo [10] (-1) false 5 1).settings.defaultDuration
      ∧ IsBinary64 3
      ∧ (3 : ℚ) < ((10 : Int) : ℚ) / (sampleFifo [10] (-1) false 5 1).settings.timebase
      ∧ isFrameAvailable (sampleFifo [10] (-1) false 5 1) (Double.finite 3) = true := by
  have hb : IsBinary64 3 := by
    simpa using isBinary64_intCast 3 (by norm_num)
  have hk : lookupKey (sampleFifo [10] (-1) false 5 1) (Double.finite 3) = 3 := by
    simpa using lookupKey_timebase_one_intCast (sampleFifo [10] (-1) false 5 1) 3 rfl
      (by norm_num)
  have hfound : (sampleFifo [10] (-1) false 5 1).videoFrames[lower_bound
      (sampleFifo [10] (-1) false 5 1).videoFrames
      (lookupKey (sampleFifo [10] (-1) false 5 1) (Double.finite 3))]?
      = some (10, sampleImage 10) := by
    rw [hk]
    rfl
  have hend : frameEnd (sampleFifo [10] (-1) false 5 1) 10 = Double.finite 15 := by
    rw [frameEnd_timebase_one _ _ rfl (by decide)]
    norm_num [sampleFifo]
  refine ⟨by decide, by decide, by decide, hb, by norm_num [sampleFifo], ?_⟩
  rw [isFrameAvailable_of_some hfound, hend]
  simp only [Double.le, decide_eq_true_eq]
  norm_num

/-- C3 (amended): `isFrameAvailable (time)` returns true exactly when the lower-bound
search finds a frame, namely the smallest stored key `K` that is at least the lookup
key, and `time <= frameEnd` for the `double` quotient `frameEnd = double (K+D) / T`; the
lower end `K/T <= time` is not tested. With a single stored frame at key `K` it is true
exactly when the lookup key is at most `K` and `time <= frameEnd`: it is false for every
time that is not `<= frameEnd`, and, for an `int` timebase `T > 0`, `D >= 0` and `K`,
`K + D` below `2^53` in size, true for every `double` time below `K/T`. -/
theorem isFrameAvailable_only_if (s : VideoFifo) (time : Double)
    (hs : keysAscending s.videoFrames)
    (hT : 0 < s.settings.timebase) (hD : 0 ≤ s.settings.defaultDuration) :
    (isFrameAvailable s time = true ↔
        ∃ K ∈ storedKeys s, lookupKey s time ≤ K
          ∧ (∀ k ∈ storedKeys s, lookupKey s time ≤ k → K ≤ k)
          ∧ Double.le time (frameEnd s K) = true)
    ∧ (∀ (K : Int) (image : Image), s.videoFrames = [(K, image)] →
        (isFrameAvailable s time = true ↔
            lookupKey s time ≤ K ∧ Double.le time (frameEnd s K) = true)
        ∧ (Double.le time (frameEnd s K) = false → isFrameAvailable s time = false)
        ∧ (∀ t : ℚ, time = Double.finite t → IsBinary64 t →
            s.settings.timebase < 2 ^ 31 → |K| < 2 ^ 53 →
            |K + s.settings.defaultDuration| < 2 ^ 53 →
            t < (K : ℚ) / s.settings.timebase → isFrameAvailable s time = true)) := by
  have hTq : (0 : ℚ) < (s.settings.timebase : ℚ) := by exact_mod_cast hT
  have hDq : (0 : ℚ) ≤ (s.settings.defaultDuration : ℚ) := by exact_mod_cast hD
  have hsingle : ∀ (K : Int) (image : Image), s.videoFrames = [(K, image)] →
      (isFrameAvailable s time = true ↔
        lookupKey s time ≤ K ∧ Double.le time (frameEnd s K) = true) := by
    intro K image hframes
    unfold isFrameAvailable
    simp only [hframes, lower_bound]
    by_cases hc : K < lookupKey s time
    · simp [hc]
    · simp [hc, not_lt.mp hc]
  constructor
  · constructor
    · intro havail
      cases hfind : s.videoFrames[lower_bound s.videoFrames (lookupKey s time)]? with
      | none =>
        rw [isFrameAvailable_of_none hfind] at havail
        exact absurd havail (by simp)
      | some f =>
        rw [isFrameAvailable_of_some hfind] at havail
        obtain ⟨h1, h2, h3⟩ := lower_bound_some hs hfind
        refine ⟨f.1, mem_storedKeys.mpr ⟨f, h1, rfl⟩, h2, ?_, havail⟩
        intro k hk hck
        obtain ⟨g, hg, rfl⟩ := mem_storedKeys.mp hk
        exact h3 g hg hck
    · rintro ⟨K, hK, hcK, hmin, hle⟩
      obtain ⟨g, hg, rfl⟩ := mem_storedKeys.mp hK
      cases hfind : s.videoFrames[lower_bound s.videoFrames (lookupKey s time)]? with
      | none =>
        have := lower_bound_none.mp hfind g hg
        omega
      | some f =>
        obtain ⟨h1, h2, h3⟩ := lower_bound_some hs hfind
        have h4 := h3 g hg hcK
        have h5 := hmin f.1 (mem_storedKeys.mpr ⟨f, h1, rfl⟩) h2
        have hfg : f.1 = g.1 := by omega
        rw [isFrameAvailable_of_some hfind, hfg]
        exact hle
  · intro K image hframes
    refine ⟨hsingle K image hframes, ?_, ?_⟩
    · intro hlate
      cases hav : isFrameAvailable s time with
      | false => rfl
      | true =>
        have := ((hsingle K image hframes).mp hav).2
        rw [hlate] at this
        exact absurd this (by simp)
    · intro t htime hbin hTint hKrep hKD hearly
      subst htime
      apply (hsingle K image hframes).mpr
      have hx : t * (s.settings.timebase : ℚ) < (K : ℚ) := (lt_div_iff₀ hTq).mp hearly
      refine ⟨lookupKey_le_of_lt s t K hT hTint hKrep (le_of_lt hx), ?_⟩
      rw [frameEnd_exact_of_pos s K hKD hT hTint]
      apply le_ofRat_of_le hbin
      rw [le_div_iff₀ hTq]
      push_cast
      linarith

/-- C3 (witness): a single frame at key 10, default duration 5, timebase 1, time 16:
past the end of the window, so not available. -/
theorem isFrameAvailable_only_if_witness :
    keysAscending (sampleFifo [10] (-1) false 5 1).videoFrames
      ∧ 0 < (sampleFifo [10] (-1) false 5 1).settings.timebase
      ∧ 0 ≤ (sampleFifo [10] (-1) false 5 1).settings.defaultDuration
      ∧ isFrameAvailable (sampleFifo [10] (-1) false 5 1) (Double.finite 16) = false := by
  have hend : frameEnd (sampleFifo [10] (-1) false 5 1) 10 = Double.finite 15 := by
    rw [frameEnd_timebase_one _ _ rfl (by decide)]
    norm_num [sampleFifo]
  exact ⟨by decide, by decide, by decide,
    ((isFrameAvailable_only_if (sampleFifo [10] (-1) false 5 1) (Double.finite 16)
      (by decide) (by decide) (by decide)).2 10 (sampleImage 10) (by decide)).2.1 (by
        rw [hend]
        simp only [Double.le, decide_eq_false_iff_not]
        norm_num)⟩

/-- C4: for a count that is a stored key, `clearFramesOlderThan (count)` removes exactly
the frames whose key is smaller than the largest stored key below `count`: with `p` that
predecessor key, the frames kept are those with key at least `p` (the predecessor, the
frame at `count` and all later frames, with their images); when no stored key is below
`count` nothing is removed; `lastViewedFrame` is unchanged. -/
theorem clearFramesOlderThan_stored_key (s : VideoFifo) (count : Int)
    (hs : keysAscending s.videoFrames) (hc : count ∈ storedKeys s) :
    (clearFramesOlderThan s count).lastViewedFrame = s.lastViewedFrame
    ∧ (∀ p ∈ storedKeys s, p < count → (∀ q ∈ storedKeys s, q < count → q ≤ p) →
        (clearFramesOlderThan s count).videoFrames
          = s.videoFrames.filter (fun f => decide (p ≤ f.1)))
    ∧ ((∀ q ∈ storedKeys s, count ≤ q) →
        (clearFramesOlderThan s count).videoFrames = s.videoFrames) := by
  obtain ⟨before, after, image, hsplit, hfind, hbefore, hafter⟩ :=
    find_split hs (mem_storedKeys.mp hc)
  refine ⟨?_, ?_, ?_⟩
  · unfold clearFramesOlderThan
    simp only
    split <;> rfl
  · intro p hp hpc hmax
    rcases List.eq_nil_or_concat before with hnil | ⟨init, q, hq⟩
    · -- no entry precedes `count`, so no stored key is below it
      exfalso
      obtain ⟨g, hg, rfl⟩ := mem_storedKeys.mp hp
      rw [hsplit, hnil] at hg
      rcases List.mem_cons.mp hg with rfl | hg
      · simp at hpc
      · have := hafter g hg
        omega
    · have hq' : before = init ++ [q] := by simpa using hq
      have hl : s.videoFrames = init ++ (q :: (count, image) :: after) := by
        rw [hsplit, hq']; simp
      have hsorted := hs
      rw [hl] at hsorted
      obtain ⟨_, htail, hcross⟩ := keysAscending_append hsorted
      obtain ⟨hqlt, _⟩ := keysAscending_cons.mp htail
      -- the predecessor key is `q.1`
      have hqmem : q.1 ∈ storedKeys s :=
        mem_storedKeys.mpr ⟨q, by rw [hl]; simp, rfl⟩
      have hqc : q.1 < count := hbefore q (by rw [hq']; simp)
      have hpq : p = q.1 := by
        have h1 := hmax q.1 hqmem hqc
        obtain ⟨g, hg, rfl⟩ := mem_storedKeys.mp hp
        rw [hl] at hg
        rcases List.mem_append.mp hg with hg | hg
        · have := hcross g hg q (List.mem_cons_self _ _)
          omega
        · rcases List.mem_cons.mp hg with rfl | hg
          · rfl
          · have : count ≤ g.1 := by
              rcases List.mem_cons.mp hg with rfl | hg
              · simp
              · exact le_of_lt (hafter g hg)
            omega
      have hcur : find s.videoFrames count = init.length + 1 := by
        rw [hfind, hq']; simp
      have hres : (clearFramesOlderThan s count).videoFrames
          = q :: (count, image) :: after := by
        unfold clearFramesOlderThan
        simp only [hcur, eraseRange]
        simp [hl]
      rw [hres, hl, hpq]
      symm
      apply filter_from_key
      · intro g hg
        exact hcross g hg q (List.mem_cons_self _ _)
      · intro g hg
        rcases List.mem_cons.mp hg with rfl | hg
        · exact le_refl _
        · exact le_of_lt (hqlt g hg)
  · intro hall
    have hzero : find s.videoFrames count = 0 := by
      rcases List.eq_nil_or_concat before with hnil | ⟨init, q, hq⟩
      · rw [hfind, hnil]; rfl
      · exfalso
        have hq' : before = init ++ [q] := by simpa using hq
        have hqc : q.1 < count := hbefore q (by rw [hq']; simp)
        have := hall q.1 (mem_storedKeys.mpr ⟨q, by rw [hsplit, hq']; simp, rfl⟩)
        omega
    unfold clearFramesOlderThan
    simp [hzero]

/-- C4 (witness): frames at keys 10, 20, 30, 40 and count 30 leave the keys 20, 30, 40. -/
theorem clearFramesOlderThan_stored_key_witness :
    keysAscending (sampleFifo [10, 20, 30, 40] (-1) false 1 1).videoFrames
      ∧ 30 ∈ storedKeys (sampleFifo [10, 20, 30, 40] (-1) false 1 1)
      ∧ storedKeys (clearFramesOlderThan (sampleFifo [10, 20, 30, 40] (-1) false 1 1) 30)
          = [20, 30, 40] := by
  refine ⟨by decide, by decide, ?_⟩
  rw [storedKeys, (clearFramesOlderThan_stored_key
    (sampleFifo [10, 20, 30, 40] (-1) false 1 1) 30 (by decide) (by decide)).2.1 20
    (by decide) (by decide) (by decide)]
  decide

/-- C5 (failing input): frames at keys 10 and 20, count 5. The count is below the lowest
stored key, yet `clearFramesOlderThan (5)` removes the frame at key 10: `find` returns
the end position, which is not the begin position, and everything before the last
entry is erased. -/
theorem clearFramesOlderThan_absent_low_count :
    (∀ k ∈ storedKeys (sampleFifo [10, 20] (-1) false 1 1), 5 ≤ k)
      ∧ (clearFramesOlderThan (sampleFifo [10, 20] (-1) false 1 1) 5).videoFrames
          = [(20, sampleImage 20)]
      ∧ (clearFramesOlderThan (sampleFifo [10, 20] (-1) false 1 1) 5).videoFrames
          ≠ (sampleFifo [10, 20] (-1) false 1 1).videoFrames := by
  decide

/-- C6 (counterexample): forward playback, frames at keys 1, 5, 9 with a null image
stored at key 1 and `lastViewedFrame = 5`. The lowest-key frame is removed, but what is
returned is not its (null) image: it is a newly built image. -/
theorem recycling_forward_null_counterexample :
    (nullEndsFifo false).reverse = false
      ∧ IsLowestFrame (nullEndsFifo false) (1, Image.null)
      ∧ (1 : Int) < (nullEndsFifo false).lastViewedFrame
      ∧ (getOldestFrameForRecycling (nullEndsFifo false)).2.videoFrames
          = [(5, sampleImage 5), (9, Image.null)]
      ∧ (getOldestFrameForRecycling (nullEndsFifo false)).1 ≠ Image.null := by
  refine ⟨rfl, ⟨by decide, by decide⟩, by decide, by decide, by decide⟩

/-- C6 (amended): with `reverse == false`, `getOldestFrameForRecycling` removes a frame
if and only if the buffer is non-empty and its lowest stored key is strictly less than
`lastViewedFrame`; in that case exactly the lowest-key frame is removed, and what is
returned is its image unless that image is null, in which case a newly built image of
the size in the settings is returned; in every case all frames with key at least
`lastViewedFrame`, all other frames, `lastViewedFrame` and the settings are unchanged. -/
theorem getOldestFrameForRecycling_forward (s : VideoFifo)
    (hs : keysAscending s.videoFrames) (hr : s.reverse = false) :
    (getOldestFrameForRecycling s).2.lastViewedFrame = s.lastViewedFrame
    ∧ (getOldestFrameForRecycling s).2.settings = s.settings
    ∧ (getOldestFrameForRecycling s).2.reverse = s.reverse
    ∧ ((getOldestFrameForRecycling s).2.videoFrames ≠ s.videoFrames ↔
        ∃ f, IsLowestFrame s f ∧ f.1 < s.lastViewedFrame)
    ∧ (∀ f, IsLowestFrame s f → f.1 < s.lastViewedFrame →
        (getOldestFrameForRecycling s).2.videoFrames
            = s.videoFrames.filter (fun g => decide (g.1 ≠ f.1))
        ∧ (getOldestFrameForRecycling s).2.videoFrames.length + 1 = s.videoFrames.length
        ∧ (getOldestFrameForRecycling s).1 =
            if f.2.isNull then
              Image.create PixelFormat.ARGB s.settings.frameSize.width
                s.settings.frameSize.height false
            else f.2)
    ∧ (∀ g ∈ s.videoFrames, s.lastViewedFrame ≤ g.1 →
        g ∈ (getOldestFrameForRecycling s).2.videoFrames) := by
  cases hframes : s.videoFrames with
  | nil =>
    rw [recycling_nil s hframes]
    simp [IsLowestFrame, hframes]
  | cons a rest =>
    rw [hframes] at hs
    obtain ⟨ha, _⟩ := keysAscending_cons.mp hs
    rw [recycling_forward_cons s a rest hr hframes]
    by_cases hlt : a.1 < s.lastViewedFrame
    · simp only [hlt, if_true, true_and]
      refine ⟨?_, ?_, ?_⟩
      · constructor
        · intro _
          exact ⟨a, ⟨by rw [hframes]; exact List.mem_cons_self _ _, by
            intro g hg
            rw [hframes] at hg
            rcases List.mem_cons.mp hg with rfl | hg
            · exact le_refl _
            · exact le_of_lt (ha g hg)⟩, hlt⟩
        · intro _ heq
          have := congrArg List.length heq
          simp at this
      · rintro f ⟨hf, hlow⟩ _
        rw [hframes] at hf hlow
        have hfa : f = a := lowest_eq_head hs hf hlow
        subst hfa
        exact ⟨(filter_ne_head hs).symm, by simp, rfl⟩
      · intro g hg hge
        rcases List.mem_cons.mp hg with rfl | hg
        · omega
        · exact hg
    · simp only [hlt, if_false, true_and]
      refine ⟨?_, ?_, ?_⟩
      · constructor
        · intro h
          exact absurd hframes h
        · rintro ⟨f, ⟨hf, hlow⟩, hflt⟩
          rw [hframes] at hf hlow
          have hfa : f = a := lowest_eq_head hs hf hlow
          subst hfa
          exact absurd hflt hlt
      · rintro f ⟨hf, hlow⟩ hflt
        rw [hframes] at hf hlow
        have hfa : f = a := lowest_eq_head hs hf hlow
        subst hfa
        exact absurd hflt hlt
      · intro g hg _
        rw [hframes]
        exact hg

/-- C6 (witness): forward playback, frames at keys 10, 20, 30, `lastViewedFrame = 20`:
the frame at key 10 is removed and its image returned. -/
theorem getOldestFrameForRecycling_forward_witness :
    keysAscending (sampleFifo [10, 20, 30] 20 false 1 1).videoFrames
      ∧ (sampleFifo [10, 20, 30] 20 false 1 1).reverse = false
      ∧ (getOldestFrameForRecycling (sampleFifo [10, 20, 30] 20 false 1 1)).1
          = sampleImage 10 :=
  ⟨by decide, rfl,
    ((getOldestFrameForRecycling_forward (sampleFifo [10, 20, 30] 20 false 1 1)
      (by decide) rfl).2.2.2.2.1 (10, sampleImage 10) ⟨by decide, by decide⟩
        (by decide)).2.2⟩

/-- C7 (counterexample): reverse playback, frames at keys 1, 5, 9 with a null image
stored at key 9 and `lastViewedFrame = 5`. The highest-key frame is removed, but what
is returned is not its (null) image: it is a newly built image. -/
theorem recycling_reverse_null_counterexample :
    (nullEndsFifo true).reverse = true
      ∧ IsHighestFrame (nullEndsFifo true) (9, Image.null)
      ∧ (nullEndsFifo true).lastViewedFrame < (9 : Int)
      ∧ (getOldestFrameForRecycling (nullEndsFifo true)).2.videoFrames
          = [(1, Image.null), (5, sampleImage 5)]
      ∧ (getOldestFrameForRecycling (nullEndsFifo true)).1 ≠ Image.null := by
  refine ⟨rfl, ⟨by decide, by decide⟩, by decide, by decide, by decide⟩

/-- C7 (amended): with `reverse == true`, `getOldestFrameForRecycling` removes a frame
if and only if the buffer is non-empty and its highest stored key is strictly greater
than `lastViewedFrame`; in that case exactly the highest-key frame is removed, and what
is returned is its image unless that image is null, in which case a newly built image
of the size in the settings is returned; in every case all frames with key at most
`lastViewedFrame`, all other frames, `lastViewedFrame` and the settings are unchanged. -/
theorem getOldestFrameForRecycling_reverse (s : VideoFifo)
    (hs : keysAscending s.videoFrames) (hr : s.reverse = true) :
    (getOldestFrameForRecycling s).2.lastViewedFrame = s.lastViewedFrame
    ∧ (getOldestFrameForRecycling s).2.settings = s.settings
    ∧ (getOldestFrameForRecycling s).2.reverse = s.reverse
    ∧ ((getOldestFrameForRecycling s).2.videoFrames ≠ s.videoFrames ↔
        ∃ f, IsHighestFrame s f ∧ s.lastViewedFrame < f.1)
    ∧ (∀ f, IsHighestFrame s f → s.lastViewedFrame < f.1 →
        (getOldestFrameForRecycling s).2.videoFrames
            = s.videoFrames.filter (fun g => decide (g.1 ≠ f.1))
        ∧ (getOldestFrameForRecycling s).2.videoFrames.length + 1 = s.videoFrames.length
        ∧ (getOldestFrameForRecycling s).1 =
            if f.2.isNull then
              Image.create PixelFormat.ARGB s.settings.frameSize.width
                s.settings.frameSize.height false
            else f.2)
    ∧ (∀ g ∈ s.videoFrames, g.1 ≤ s.lastViewedFrame →
        g ∈ (getOldestFrameForRecycling s).2.videoFrames) := by
  rcases List.eq_nil_or_concat s.videoFrames with hframes | ⟨init, z, hconcat⟩
  · rw [recycling_nil s hframes]
    simp [IsHighestFrame, hframes]
  · have hframes : s.videoFrames = init ++ [z] := by simpa using hconcat
    rw [hframes] at hs
    obtain ⟨_, _, hcross⟩ := keysAscending_append hs
    have hz : ∀ g ∈ init, g.1 < z.1 := fun g hg => hcross g hg z (by simp)
    rw [recycling_reverse_concat s init z hr hframes]
    by_cases hlt : z.1 > s.lastViewedFrame
    · simp only [hlt, if_true, true_and]
      refine ⟨?_, ?_, ?_⟩
      · constructor
        · intro _
          exact ⟨z, ⟨by rw [hframes]; simp, by
            intro g hg
            rw [hframes] at hg
            rcases List.mem_append.mp hg with hg | hg
            · exact le_of_lt (hz g hg)
            · have : g = z := by simpa using hg
              rw [this]⟩, hlt⟩
        · intro _ heq
          rw [hframes] at heq
          have := congrArg List.length heq
          simp at this
      · rintro f ⟨hf, hhigh⟩ _
        rw [hframes] at hf hhigh
        have hfz : f = z := highest_eq_last hs hf hhigh
        subst hfz
        rw [hframes]
        exact ⟨(filter_ne_last hs).symm, by simp, rfl⟩
      · intro g hg hge
        rw [hframes] at hg
        rcases List.mem_append.mp hg with hg | hg
        · exact hg
        · have : g = z := by simpa using hg
          subst this
          omega
    · simp only [hlt, if_false, true_and]
      refine ⟨?_, ?_, ?_⟩
      · constructor
        · intro h
          exact absurd rfl h
        · rintro ⟨f, ⟨hf, hhigh⟩, hflt⟩
          rw [hframes] at hf hhigh
          have hfz : f = z := highest_eq_last hs hf hhigh
          subst hfz
          exact absurd hflt hlt
      · rintro f ⟨hf, hhigh⟩ hflt
        rw [hframes] at hf hhigh
        have hfz : f = z := highest_eq_last hs hf hhigh
        subst hfz
        exact absurd hflt hlt
      · intro g hg _
        exact hg

/-- C7 (witness): reverse playback, frames at keys 10, 20, 30, `lastViewedFrame = 20`:
the frame at key 30 is removed and its image returned. -/
theorem getOldestFrameForRecycling_reverse_witness :
    keysAscending (sampleFifo [10, 20, 30] 20 true 1 1).videoFrames
      ∧ (sampleFifo [10, 20, 30] 20 true 1 1).reverse = true
      ∧ (getOldestFrameForRecycling (sampleFifo [10, 20, 30] 20 true 1 1)).1
          = sampleImage 30 :=
  ⟨by decide, rfl,
    ((getOldestFrameForRecycling_reverse (sampleFifo [10, 20, 30] 20 true 1 1)
      (by decide) rfl).2.2.2.2.1 (30, sampleImage 30) ⟨by decide, by decide⟩
        (by decide)).2.2⟩

/-- C8: in either playback direction `getOldestFrameForRecycling` returns a non-null
image; when no frame qualifies for eviction (in particular on the empty buffer) the
frames are left unchanged and the returned image is a newly built ARGB image whose width
and height are those of `settings.frameSize`; the same newly built image is returned when
the evicted frame holds a null image. -/
theorem getOldestFrameForRecycling_never_null (s : VideoFifo)
    (hs : keysAscending s.videoFrames) :
    (getOldestFrameForRecycling s).1.isNull = false
    ∧ ((¬ ∃ f, QualifiesForEviction s f) →
        (getOldestFrameForRecycling s).1
            = Image.create PixelFormat.ARGB s.settings.frameSize.width
                s.settings.frameSize.height false
        ∧ (getOldestFrameForRecycling s).2.videoFrames = s.videoFrames)
    ∧ (s.videoFrames = [] → ¬ ∃ f, QualifiesForEviction s f)
    ∧ (∀ f, QualifiesForEviction s f → f.2.isNull = true →
        (getOldestFrameForRecycling s).1
            = Image.create PixelFormat.ARGB s.settings.frameSize.width
                s.settings.frameSize.height false)
    ∧ (Image.create PixelFormat.ARGB s.settings.frameSize.width
          s.settings.frameSize.height false).getWidth = s.settings.frameSize.width
    ∧ (Image.create PixelFormat.ARGB s.settings.frameSize.width
          s.settings.frameSize.height false).getHeight = s.settings.frameSize.height := by
  have hempty : s.videoFrames = [] → ¬ ∃ f, QualifiesForEviction s f := by
    rintro hnil ⟨f, hf⟩
    unfold QualifiesForEviction IsLowestFrame IsHighestFrame at hf
    rw [hnil] at hf
    split at hf <;> simp at hf
  refine ⟨?_, ?_, hempty, ?_, rfl, rfl⟩
  · -- the returned image is never null
    unfold getOldestFrameForRecycling
    simp only
    exact isNull_ite_create _ _ rfl
  · intro hnone
    cases hrev : s.reverse with
    | false =>
      cases hframes : s.videoFrames with
      | nil => rw [recycling_nil s hframes]; exact ⟨rfl, hframes⟩
      | cons a rest =>
        rw [recycling_forward_cons s a rest hrev hframes]
        by_cases hlt : a.1 < s.lastViewedFrame
        · exfalso
          apply hnone
          refine ⟨a, ?_⟩
          unfold QualifiesForEviction IsLowestFrame
          rw [if_pos hrev, hframes]
          rw [hframes] at hs
          obtain ⟨ha, _⟩ := keysAscending_cons.mp hs
          refine ⟨⟨List.mem_cons_self _ _, ?_⟩, hlt⟩
          intro g hg
          rcases List.mem_cons.mp hg with rfl | hg
          · exact le_refl _
          · exact le_of_lt (ha g hg)
        · simp only [hlt, if_false]
          exact ⟨trivial, hframes⟩
    | true =>
      rcases List.eq_nil_or_concat s.videoFrames with hframes | ⟨init, z, hconcat⟩
      · rw [recycling_nil s hframes]; exact ⟨rfl, rfl⟩
      · have hframes : s.videoFrames = init ++ [z] := by simpa using hconcat
        rw [recycling_reverse_concat s init z hrev hframes]
        by_cases hlt : z.1 > s.lastViewedFrame
        · exfalso
          apply hnone
          refine ⟨z, ?_⟩
          unfold QualifiesForEviction IsHighestFrame
          rw [if_neg (by simp [hrev]), hframes]
          rw [hframes] at hs
          obtain ⟨_, _, hcross⟩ := keysAscending_append hs
          refine ⟨⟨by simp, ?_⟩, hlt⟩
          intro g hg
          rcases List.mem_append.mp hg with hg | hg
          · exact le_of_lt (hcross g hg z (by simp))
          · have : g = z := by simpa using hg
            rw [this]
        · simp only [hlt, if_false]
          exact ⟨trivial, trivial⟩
  · intro f hf hnull
    cases hrev : s.reverse with
    | false =>
      unfold QualifiesForEviction IsLowestFrame at hf
      rw [if_pos hrev] at hf
      obtain ⟨⟨hmem, hlow⟩, hflt⟩ := hf
      cases hframes : s.videoFrames with
      | nil => rw [hframes] at hmem; simp at hmem
      | cons a rest =>
        rw [hframes] at hs hmem hlow
        have hfa : f = a := lowest_eq_head hs hmem hlow
        subst hfa
        rw [recycling_forward_cons s f rest hrev hframes]
        simp [hflt, hnull]
    | true =>
      unfold QualifiesForEviction IsHighestFrame at hf
      rw [if_neg (by simp [hrev])] at hf
      obtain ⟨⟨hmem, hhigh⟩, hflt⟩ := hf
      rcases List.eq_nil_or_concat s.videoFrames with hframes | ⟨init, z, hconcat⟩
      · rw [hframes] at hmem; simp at hmem
      · have hframes : s.videoFrames = init ++ [z] := by simpa using hconcat
        rw [hframes] at hs hmem hhigh
        have hfz : f = z := highest_eq_last hs hmem hhigh
        subst hfz
        rw [recycling_reverse_concat s init f hrev hframes]
        simp [hflt, hnull]

/-- C8 (witness): forward playback, frames at keys 10, 20, 30 and `lastViewedFrame = 5`:
no frame qualifies, and the image handed out is not null. -/
theorem getOldestFrameForRecycling_never_null_witness :
    keysAscending (sampleFifo [10, 20, 30] 5 false 1 1).videoFrames
      ∧ (getOldestFrameForRecycling (sampleFifo [10, 20, 30] 5 false 1 1)).1.isNull = false :=
  ⟨by decide,
    (getOldestFrameForRecycling_never_null (sampleFifo [10, 20, 30] 5 false 1 1)
      (by decide)).1⟩

/-- C9 (counterexample): frames at keys 5, 15, 25 and `lastViewedFrame = 30`: no stored
frame has a key that is at least 30, yet `getNumAvailableFrames` returns 3. -/
theorem getNumAvailableFrames_past_end_counterexample :
    (sampleFifo [5, 15, 25] 30 false 1 1).videoFrames.countP
        (fun f => decide ((sampleFifo [5, 15, 25] 30 false 1 1).lastViewedFrame ≤ f.1)) = 0
      ∧ getNumAvailableFrames (sampleFifo [5, 15, 25] 30 false 1 1) = 3 := by
  decide

/-- C9 (amended): for a buffer with fewer than `2^31` frames, `getNumAvailableFrames`
returns the number of stored frames whose key is at least `lastViewedFrame` when there
is such a frame, and the number of all stored frames when every stored key is below
`lastViewedFrame`. -/
theorem getNumAvailableFrames_spec (s : VideoFifo) (hs : keysAscending s.videoFrames)
    (hsize : s.videoFrames.length < 2 ^ 31) :
    ((∃ k ∈ storedKeys s, s.lastViewedFrame ≤ k) →
        getNumAvailableFrames s
          = ((s.videoFrames.countP (fun f => decide (s.lastViewedFrame ≤ f.1)) : Nat) : Int))
    ∧ ((∀ k ∈ storedKeys s, k < s.lastViewedFrame) →
        getNumAvailableFrames s = (s.videoFrames.length : Int)) := by
  have hlen : ((s.videoFrames.length : Nat) : Int) < 2 ^ 31 := by exact_mod_cast hsize
  have hle := lower_bound_le_length s.videoFrames s.lastViewedFrame
  constructor
  · rintro ⟨k, hk, hge⟩
    obtain ⟨g, hg, rfl⟩ := mem_storedKeys.mp hk
    have hne : lower_bound s.videoFrames s.lastViewedFrame ≠ s.videoFrames.length := by
      intro heq
      have := lower_bound_eq_length_iff.mp heq g hg
      omega
    unfold getNumAvailableFrames
    simp only [hne, if_false]
    rw [← length_sub_lower_bound s.lastViewedFrame hs, toInt_of_lt (by omega) (by omega)]
    omega
  · intro hall
    have heq : lower_bound s.videoFrames s.lastViewedFrame = s.videoFrames.length :=
      lower_bound_eq_length_iff.mpr
        (fun g hg => hall g.1 (mem_storedKeys.mpr ⟨g, hg, rfl⟩))
    unfold getNumAvailableFrames
    simp only [heq, if_true]
    have hmin : min ((s.videoFrames.length : Nat) : Int) INT_MAX = s.videoFrames.length := by
      unfold INT_MAX
      norm_num at hlen ⊢
      omega
    rw [hmin, toInt_of_lt (by omega) hlen]

/-- C9 (witness): frames at keys 5, 15, 25 and `lastViewedFrame = 15` give 2. -/
theorem getNumAvailableFrames_spec_witness :
    keysAscending (sampleFifo [5, 15, 25] 15 false 1 1).videoFrames
      ∧ (sampleFifo [5, 15, 25] 15 false 1 1).videoFrames.length < 2 ^ 31
      ∧ getNumAvailableFrames (sampleFifo [5, 15, 25] 15 false 1 1) = 2 :=
  ⟨by decide, by decide,
    (getNumAvailableFrames_spec (sampleFifo [5, 15, 25] 15 false 1 1) (by decide)
      (by decide)).1 ⟨15, by decide, by decide⟩⟩

/-- C10: when the lower-bound search of `getVideoFrame (time)` finds a frame (some
stored key is at least the lookup key, the `int64_t` that `time*T` converts to), the
stored (key, image) pair of that frame is returned, its key is the one
`getFrameCountForTime (time)` returns, `lastViewedFrame` becomes that key and the stored
frames are unchanged; when it finds none, the empty pair (key 0, null image) is returned
and the state is unchanged. -/
theorem getVideoFrame_spec (s : VideoFifo) (time : Double)
    (hs : keysAscending s.videoFrames) :
    ((∃ k ∈ storedKeys s, lookupKey s time ≤ k) →
        (getVideoFrame s time).1 ∈ s.videoFrames
        ∧ lookupKey s time ≤ (getVideoFrame s time).1.1
        ∧ (∀ k ∈ storedKeys s, lookupKey s time ≤ k → (getVideoFrame s time).1.1 ≤ k)
        ∧ (getVideoFrame s time).1.1 = getFrameCountForTime s time
        ∧ (getVideoFrame s time).2.lastViewedFrame = (getVideoFrame s time).1.1
        ∧ (getVideoFrame s time).2.videoFrames = s.videoFrames
        ∧ (getVideoFrame s time).2.settings = s.settings
        ∧ (getVideoFrame s time).2.reverse = s.reverse)
    ∧ ((∀ k ∈ storedKeys s, k < lookupKey s time) →
        (getVideoFrame s time).1 = (0, Image.null)
        ∧ (getVideoFrame s time).2 = s) := by
  constructor
  · rintro ⟨k, hk, hck⟩
    obtain ⟨g, hg, rfl⟩ := mem_storedKeys.mp hk
    unfold getVideoFrame getFrameCountForTime
    simp only
    cases hfind : s.videoFrames[lower_bound s.videoFrames (lookupKey s time)]? with
    | none =>
      have := lower_bound_none.mp hfind g hg
      omega
    | some f =>
      obtain ⟨h1, h2, h3⟩ := lower_bound_some hs hfind
      refine ⟨h1, h2, ?_, rfl, rfl, rfl, rfl, rfl⟩
      intro k' hk' hck'
      obtain ⟨g', hg', rfl⟩ := mem_storedKeys.mp hk'
      exact h3 g' hg' hck'
  · intro hall
    have hnone : s.videoFrames[lower_bound s.videoFrames (lookupKey s time)]? = none :=
      lower_bound_none.mpr (fun g hg => hall g.1 (mem_storedKeys.mpr ⟨g, hg, rfl⟩))
    unfold getVideoFrame
    simp [hnone]

/-- C10 (witness): frames at keys 10, 20, 30, timebase 1, time 15: the frame at key 20
is found and `lastViewedFrame` becomes the returned key. -/
theorem getVideoFrame_spec_witness :
    keysAscending (sampleFifo [10, 20, 30] (-1) false 1 1).videoFrames
      ∧ (getVideoFrame (sampleFifo [10, 20, 30] (-1) false 1 1)
            (Double.finite 15)).2.lastViewedFrame
          = (getVideoFrame (sampleFifo [10, 20, 30] (-1) false 1 1) (Double.finite 15)).1.1 := by
  have hk : lookupKey (sampleFifo [10, 20, 30] (-1) false 1 1) (Double.finite 15) = 15 := by
    simpa using lookupKey_timebase_one_intCast (sampleFifo [10, 20, 30] (-1) false 1 1) 15 rfl
      (by norm_num)
  exact ⟨by decide,
    ((getVideoFrame_spec (sampleFifo [10, 20, 30] (-1) false 1 1) (Double.finite 15)
      (by decide)).1 ⟨20, by decide, by rw [hk]; norm_num⟩).2.2.2.2.1⟩

/-! ## Further lemmas: conversion, insertion, removal -/

theorem mem_insertOrAssign {l : List Frame} (hl : keysAscending l) (key : Int)
    (image : Image) (f : Frame) :
    f ∈ insertOrAssign l key image ↔ f = (key, image) ∨ (f ∈ l ∧ f.1 ≠ key) := by
  induction l with
  | nil => simp [insertOrAssign]
  | cons a rest ih =>
    obtain ⟨ha, hrest⟩ := keysAscending_cons.mp hl
    simp only [insertOrAssign]
    by_cases h1 : key < a.1
    · simp only [h1, if_true, List.mem_cons]
      constructor
      · rintro (h | h | h)
        · exact Or.inl h
        · subst h
          exact Or.inr ⟨Or.inl rfl, by omega⟩
        · exact Or.inr ⟨Or.inr h, by have := ha f h; omega⟩
      · rintro (h | ⟨h | h, _⟩)
        · exact Or.inl h
        · exact Or.inr (Or.inl h)
        · exact Or.inr (Or.inr h)
    · by_cases h2 : key = a.1
      · subst h2
        rw [if_neg (lt_irrefl _), if_pos rfl]
        simp only [List.mem_cons]
        constructor
        · rintro (h | h)
          · exact Or.inl h
          · exact Or.inr ⟨Or.inr h, by have := ha f h; omega⟩
        · rintro (h | ⟨h | h, hne⟩)
          · exact Or.inl h
          · subst h
            exact absurd rfl hne
          · exact Or.inr h
      · simp only [h1, h2, if_false, List.mem_cons, ih hrest]
        constructor
        · rintro (h | h | ⟨h, hne⟩)
          · subst h
            exact Or.inr ⟨Or.inl rfl, fun h => h2 h.symm⟩
          · exact Or.inl h
          · exact Or.inr ⟨Or.inr h, hne⟩
        · rintro (h | ⟨h | h, hne⟩)
          · exact Or.inr (Or.inl h)
          · exact Or.inl h
          · exact Or.inr (Or.inr ⟨h, hne⟩)

theorem keysAscending_insertOrAssign {l : List Frame} (hl : keysAscending l) (key : Int)
    (image : Image) : keysAscending (insertOrAssign l key image) := by
  induction l with
  | nil => simp [insertOrAssign, keysAscending]
  | cons a rest ih =>
    obtain ⟨ha, hrest⟩ := keysAscending_cons.mp hl
    simp only [insertOrAssign]
    by_cases h1 : key < a.1
    · simp only [h1, if_true]
      refine keysAscending_cons.mpr ⟨?_, hl⟩
      intro g hg
      rcases List.mem_cons.mp hg with rfl | hg
      · exact h1
      · have := ha g hg
        simp only
        omega
    · by_cases h2 : key = a.1
      · subst h2
        rw [if_neg (lt_irrefl _), if_pos rfl]
        exact keysAscending_cons.mpr ⟨ha, hrest⟩
      · simp only [h1, h2, if_false]
        refine keysAscending_cons.mpr ⟨?_, ih hrest⟩
        intro g hg
        rcases (mem_insertOrAssign hrest key image g).mp hg with rfl | ⟨hg, _⟩
        · simp only
          omega
        · exact ha g hg

theorem length_insertOrAssign {l : List Frame} (hl : keysAscending l) (key : Int)
    (image : Image) :
    (insertOrAssign l key image).length
      = if key ∈ l.map Prod.fst then l.length else l.length + 1 := by
  induction l with
  | nil => simp [insertOrAssign]
  | cons a rest ih =>
    obtain ⟨ha, hrest⟩ := keysAscending_cons.mp hl
    simp only [insertOrAssign]
    by_cases h1 : key < a.1
    · have hnot : key ∉ (a :: rest).map Prod.fst := by
        intro hmem
        obtain ⟨g, hg, hgk⟩ := List.mem_map.mp hmem
        rcases List.mem_cons.mp hg with rfl | hg
        · omega
        · have := ha g hg
          omega
      rw [if_pos h1, if_neg hnot]
      simp
    · by_cases h2 : key = a.1
      · have hmem : key ∈ (a :: rest).map Prod.fst := by simp [h2]
        rw [if_neg h1, if_pos h2, if_pos hmem]
        simp
      · have hiff : key ∈ (a :: rest).map Prod.fst ↔ key ∈ rest.map Prod.fst := by
          simp only [List.map_cons, List.mem_cons]
          constructor
          · rintro (h | h)
            · exact absurd h h2
            · exact h
          · exact Or.inr
        simp only [h1, h2, if_false, List.length_cons, ih hrest]
        by_cases hm : key ∈ rest.map Prod.fst
        · rw [if_pos hm, if_pos (hiff.mpr hm)]
        · rw [if_neg hm, if_neg (fun h => hm (hiff.mp h))]

/-- Pushing a key that no stored key undercuts puts the new frame first. -/
theorem insertOrAssign_of_le {l : List Frame} (key : Int) (image : Image)
    (h : ∀ g ∈ l, key ≤ g.1) :
    ∃ rest, insertOrAssign l key image = (key, image) :: rest
      ∧ (l = [] → rest = []) ∧ (∀ old, l = [(key, old)] → rest = []) := by
  cases l with
  | nil => exact ⟨[], by simp [insertOrAssign], fun _ => rfl, fun _ _ => rfl⟩
  | cons a rest =>
    have ha := h a (List.mem_cons_self _ _)
    by_cases h1 : key < a.1
    · refine ⟨a :: rest, by simp [insertOrAssign, h1], by simp, ?_⟩
      intro old hold
      simp only [List.cons.injEq] at hold
      obtain ⟨rfl, _⟩ := hold
      simp at h1
    · have h2 : key = a.1 := by omega
      refine ⟨rest, by simp [insertOrAssign, h2], by simp, ?_⟩
      intro old hold
      simp only [List.cons.injEq] at hold
      exact hold.2

/-! ## Further lemmas: the ends of the map -/

theorem popVideoFrame_cons (s : VideoFifo) (a : Frame) (rest : List Frame)
    (hf : s.videoFrames = a :: rest) :
    popVideoFrame s = (a, { s with videoFrames := rest }) := by
  unfold popVideoFrame
  simp [hf]

theorem popVideoFrame_nil (s : VideoFifo) (hf : s.videoFrames = []) :
    popVideoFrame s = ((0, Image.null), s) := by
  unfold popVideoFrame
  simp [hf]

theorem getLowestTimeCode_cons (s : VideoFifo) (a : Frame) (rest : List Frame)
    (hf : s.videoFrames = a :: rest) : getLowestTimeCode s = a.1 := by
  unfold getLowestTimeCode
  simp [hf]

theorem getHighestTimeCode_concat (s : VideoFifo) (init : List Frame) (z : Frame)
    (hf : s.videoFrames = init ++ [z]) : getHighestTimeCode s = z.1 := by
  unfold getHighestTimeCode
  rw [hf]
  simp

theorem head_le_of_ascending {a : Frame} {rest : List Frame}
    (hl : keysAscending (a :: rest)) : ∀ g ∈ a :: rest, a.1 ≤ g.1 := by
  obtain ⟨ha, _⟩ := keysAscending_cons.mp hl
  intro g hg
  rcases List.mem_cons.mp hg with rfl | hg
  · exact le_refl _
  · exact le_of_lt (ha g hg)

theorem le_last_of_ascending {z : Frame} {init : List Frame}
    (hl : keysAscending (init ++ [z])) : ∀ g ∈ init ++ [z], g.1 ≤ z.1 := by
  obtain ⟨_, _, hcross⟩ := keysAscending_append hl
  intro g hg
  rcases List.mem_append.mp hg with hg | hg
  · exact le_of_lt (hcross g hg z (by simp))
  · have : g = z := by simpa using hg
    rw [this]

/-! ## Further lemmas: removal keeps the order, repeated recycling -/

theorem keysAscending_of_sublist {l1 l2 : List Frame} (h : l1.Sublist l2)
    (hl : keysAscending l2) : keysAscending l1 := by
  unfold keysAscending at *
  exact hl.sublist h

theorem recycling_sublist (s : VideoFifo) :
    (getOldestFrameForRecycling s).2.videoFrames.Sublist s.videoFrames := by
  cases hrev : s.reverse with
  | false =>
    cases hframes : s.videoFrames with
    | nil => rw [recycling_nil s hframes, hframes]
    | cons a rest =>
      rw [recycling_forward_cons s a rest hrev hframes]
      split
      · exact List.sublist_cons_self a rest
      · rw [hframes]
  | true =>
    rcases List.eq_nil_or_concat s.videoFrames with hframes | ⟨init, z, hconcat⟩
    · rw [recycling_nil s hframes]
    · have hframes : s.videoFrames = init ++ [z] := by simpa using hconcat
      rw [recycling_reverse_concat s init z hrev hframes]
      split
      · rw [hframes]
        exact List.sublist_append_left init [z]
      · exact List.Sublist.refl _

theorem clearFramesOlderThan_frames (s : VideoFifo) (count : Int) :
    (clearFramesOlderThan s count).videoFrames
      = if find s.videoFrames count = 0 then s.videoFrames
        else s.videoFrames.drop (find s.videoFrames count - 1) := by
  unfold clearFramesOlderThan
  simp only
  split
  · rfl
  · simp [eraseRange]

theorem find_of_absent {l : List Frame} {count : Int} (h : ∀ g ∈ l, g.1 ≠ count) :
    find l count = l.length := by
  induction l with
  | nil => rfl
  | cons a rest ih =>
    have ha := h a (List.mem_cons_self _ _)
    simp only [find, ha, if_false, List.length_cons]
    rw [ih (fun g hg => h g (List.mem_cons_of_mem _ hg))]

theorem lower_bound_eq_zero {l : List Frame} {k : Int} (h : ∀ g ∈ l, k ≤ g.1) :
    lower_bound l k = 0 := by
  cases l with
  | nil => rfl
  | cons a rest =>
    have ha := h a (List.mem_cons_self _ _)
    simp only [lower_bound]
    rw [if_neg (by omega)]

/-- In an ascending list the entries from the lower-bound position on are the entries
with key at least `k`. -/
theorem drop_lower_bound {l : List Frame} (k : Int) (hl : keysAscending l) :
    l.drop (lower_bound l k) = l.filter (fun f => decide (k ≤ f.1)) := by
  induction l with
  | nil => simp [lower_bound]
  | cons a rest ih =>
    obtain ⟨ha, hrest⟩ := keysAscending_cons.mp hl
    simp only [lower_bound]
    by_cases hak : a.1 < k
    · rw [if_pos hak, List.drop_succ_cons, ih hrest,
        List.filter_cons_of_neg (by simpa using hak)]
    · rw [if_neg hak, List.drop_zero]
      symm
      rw [List.filter_eq_self]
      intro g hg
      rcases List.mem_cons.mp hg with rfl | hg
      · simpa using hak
      · have := ha g hg
        simp only [decide_eq_true_eq]
        omega

/-- Forward recycling on a buffer with no key below `lastViewedFrame` changes nothing. -/
theorem recycling_forward_idle (s : VideoFifo) (hr : s.reverse = false)
    (h : ∀ g ∈ s.videoFrames, s.lastViewedFrame ≤ g.1) :
    (getOldestFrameForRecycling s).2 = s := by
  cases hframes : s.videoFrames with
  | nil => rw [recycling_nil s hframes]
  | cons a rest =>
    have ha := h a (by rw [hframes]; exact List.mem_cons_self _ _)
    rw [recycling_forward_cons s a rest hr hframes, if_neg (by omega)]

theorem recycleTimes_idle (n : Nat) (s : VideoFifo) (hr : s.reverse = false)
    (h : ∀ g ∈ s.videoFrames, s.lastViewedFrame ≤ g.1) : recycleTimes n s = s := by
  induction n with
  | zero => rfl
  | succ n ih =>
    simp only [recycleTimes]
    rw [recycling_forward_idle s hr h]
    exact ih

/-- The state after `n` forward recycling calls: the first `n` frames below
`lastViewedFrame` are gone, nothing else has changed. -/
theorem recycleTimes_forward (n : Nat) :
    ∀ s : VideoFifo, s.reverse = false →
      recycleTimes n s =
        { s with
          videoFrames :=
            s.videoFrames.drop (min n (lower_bound s.videoFrames s.lastViewedFrame)) } := by
  induction n with
  | zero =>
    intro s _
    simp [recycleTimes]
  | succ n ih =>
    intro s hr
    simp only [recycleTimes]
    cases hframes : s.videoFrames with
    | nil =>
      rw [recycling_nil s hframes, ih s hr, hframes]
      simp
    | cons a rest =>
      rw [recycling_forward_cons s a rest hr hframes]
      by_cases hlt : a.1 < s.lastViewedFrame
      · rw [if_pos hlt]
        dsimp only
        rw [ih { s with videoFrames := rest } hr]
        simp only [lower_bound, hlt, if_true, Nat.add_min_add_right, List.drop_succ_cons]
      · rw [if_neg hlt]
        dsimp only
        rw [ih s hr, hframes]
        simp [lower_bound, hlt]

theorem denseFifo_keys (n : Nat) :
    ∀ g ∈ (denseFifo n).videoFrames, (denseFifo n).lastViewedFrame ≤ g.1 := by
  intro g hg
  simp only [denseFifo, List.mem_map, List.mem_range] at hg
  obtain ⟨i, _, rfl⟩ := hg
  simp [denseFifo]

theorem denseFifo_size (n : Nat) : size (denseFifo n) = n := by
  simp [size, denseFifo]

theorem denseFifo_numAvailable (n : Nat) (hn : 0 < n) :
    getNumAvailableFrames (denseFifo n) = toInt n := by
  have hlb := lower_bound_eq_zero (denseFifo_keys n)
  have hlen : (denseFifo n).videoFrames.length = n := denseFifo_size n
  unfold getNumAvailableFrames
  simp only [hlb, hlen]
  rw [if_neg (by omega)]
  simp

/-- One step of a forward run of lookups: if `lastViewedFrame` is at most every stored
key that a lookup at `time` or later can find, the lookup at `time` does not decrease
it, and the same bound holds afterwards for every later time. -/
theorem getVideoFrame_step {s : VideoFifo} {time : Double} {later : List Double}
    (hs : keysAscending s.videoFrames)
    (hlater : ∀ t ∈ later, lookupKey s time ≤ lookupKey s t)
    (hinv : ∀ t ∈ time :: later, ∀ g ∈ s.videoFrames,
      lookupKey s t ≤ g.1 → s.lastViewedFrame ≤ g.1) :
    s.lastViewedFrame ≤ (getVideoFrame s time).2.lastViewedFrame
      ∧ ∀ t ∈ later, ∀ g ∈ s.videoFrames,
          lookupKey s t ≤ g.1 → (getVideoFrame s time).2.lastViewedFrame ≤ g.1 := by
  cases h : s.videoFrames[lower_bound s.videoFrames (lookupKey s time)]? with
  | none =>
    rw [getVideoFrame_of_none h]
    refine ⟨le_refl _, ?_⟩
    intro t ht g hg hc
    exact hinv t (List.mem_cons_of_mem _ ht) g hg hc
  | some f =>
    obtain ⟨h1, h2, h3⟩ := lower_bound_some hs h
    rw [getVideoFrame_of_some h]
    refine ⟨hinv time (List.mem_cons_self _ _) f h1 h2, ?_⟩
    intro t ht g hg hc
    exact h3 g hg (le_trans (hlater t ht) hc)

/-- A forward run of lookups keeps the frames and settings, and keeps the bound of
`getVideoFrame_step` for the times still to come. -/
theorem getVideoFrames_run (before : List Double) :
    ∀ (s0 s : VideoFifo) (later : List Double), s.videoFrames = s0.videoFrames →
      s.settings = s0.settings → keysAscending s0.videoFrames →
      (before ++ later).Pairwise (fun a b => lookupKey s0 a ≤ lookupKey s0 b) →
      (∀ t ∈ before ++ later, ∀ g ∈ s0.videoFrames,
        lookupKey s0 t ≤ g.1 → s.lastViewedFrame ≤ g.1) →
      (getVideoFrames s before).videoFrames = s0.videoFrames
        ∧ (getVideoFrames s before).settings = s0.settings
        ∧ ∀ t ∈ later, ∀ g ∈ s0.videoFrames,
            lookupKey s0 t ≤ g.1 → (getVideoFrames s before).lastViewedFrame ≤ g.1 := by
  induction before with
  | nil =>
    intro s0 s later hfr hset _ _ hinv
    exact ⟨hfr, hset, fun t ht g hg hc => hinv t (by simpa using ht) g hg hc⟩
  | cons t0 rest ih =>
    intro s0 s later hfr hset hs hsorted hinv
    simp only [List.cons_append, List.pairwise_cons] at hsorted
    obtain ⟨hfirst, hrestsorted⟩ := hsorted
    obtain ⟨hfr1, hset1, _⟩ := getVideoFrame_frames s t0
    have hkey : ∀ t, lookupKey s t = lookupKey s0 t := lookupKey_congr hset
    have hstep := (@getVideoFrame_step s t0 (rest ++ later)
      (by rw [hfr]; exact hs)
      (by intro t ht; rw [hkey, hkey]; exact hfirst t ht)
      (by
        intro t ht g hg hc
        rw [hfr] at hg
        rw [hkey] at hc
        exact hinv t (by simpa using ht) g hg hc)).2
    simp only [getVideoFrames]
    refine ih s0 (getVideoFrame s t0).2 later (by rw [hfr1, hfr]) (by rw [hset1, hset]) hs
      hrestsorted ?_
    intro t ht g hg hc
    rw [← hfr] at hg
    rw [← hkey] at hc
    exact hstep t ht g hg hc

/-- C11 (counterexample): frames at keys 10 and 20, timebase 1, `lastViewedFrame = 20`
(the state after a lookup at time 15); `getVideoFrame (5)` finds the frame at key 10 and
moves `lastViewedFrame` back to 10. -/
theorem getVideoFrame_moves_back_counterexample :
    (getVideoFrame (sampleFifo [10, 20] 20 false 1 1) (Double.finite 5)).2.lastViewedFrame = 10
      ∧ (getVideoFrame (sampleFifo [10, 20] 20 false 1 1) (Double.finite 5)).2.lastViewedFrame
          < (sampleFifo [10, 20] 20 false 1 1).lastViewedFrame := by
  have hk : lookupKey (sampleFifo [10, 20] 20 false 1 1) (Double.finite 5) = 5 := by
    simpa using lookupKey_timebase_one_intCast (sampleFifo [10, 20] 20 false 1 1) 5 rfl
      (by norm_num)
  have h : (getVideoFrame (sampleFifo [10, 20] 20 false 1 1)
      (Double.finite 5)).2.lastViewedFrame = 10 := by
    unfold getVideoFrame
    rw [hk]
    simp [sampleFifo, lower_bound]
  rw [h]
  exact ⟨rfl, by decide⟩

/-- C11 (amended): `pushVideoFrame`, `popVideoFrame`, `getOldestFrameForRecycling` and
`clearFramesOlderThan` leave `lastViewedFrame` unchanged (the other queries are
functions of the state that return no new state), and `clear` sets it to -1.
`getVideoFrame (time)` leaves it unchanged when it finds no frame and otherwise sets it
to the key it returns, which is at least the lookup key (the `int64_t` that `time*T`
converts to): so the value after the call is at least the value before whenever the
value before is at most the lookup key, and it can be smaller for a lookup at an earlier
time. -/
theorem lastViewedFrame_after_operation (s : VideoFifo) (image : Image) (key count : Int)
    (time : Double) (hs : keysAscending s.videoFrames) :
    (pushVideoFrame s image key).lastViewedFrame = s.lastViewedFrame
    ∧ (popVideoFrame s).2.lastViewedFrame = s.lastViewedFrame
    ∧ (getOldestFrameForRecycling s).2.lastViewedFrame = s.lastViewedFrame
    ∧ (clearFramesOlderThan s count).lastViewedFrame = s.lastViewedFrame
    ∧ (clear s).lastViewedFrame = -1
    ∧ ((∀ k ∈ storedKeys s, k < lookupKey s time) →
        (getVideoFrame s time).2.lastViewedFrame = s.lastViewedFrame)
    ∧ ((∃ k ∈ storedKeys s, lookupKey s time ≤ k) →
        (getVideoFrame s time).2.lastViewedFrame = (getVideoFrame s time).1.1
        ∧ lookupKey s time ≤ (getVideoFrame s time).2.lastViewedFrame)
    ∧ (s.lastViewedFrame ≤ lookupKey s time →
        s.lastViewedFrame ≤ (getVideoFrame s time).2.lastViewedFrame) := by
  refine ⟨rfl, ?_, rfl, ?_, rfl, ?_, ?_, ?_⟩
  · unfold popVideoFrame
    split
    · rfl
    · split <;> rfl
  · unfold clearFramesOlderThan
    simp only
    split <;> rfl
  · intro hall
    have hnone : s.videoFrames[lower_bound s.videoFrames (lookupKey s time)]? = none :=
      lower_bound_none.mpr (fun g hg => hall g.1 (mem_storedKeys.mpr ⟨g, hg, rfl⟩))
    rw [getVideoFrame_of_none hnone]
  · rintro ⟨k, hk, hck⟩
    obtain ⟨g, hg, rfl⟩ := mem_storedKeys.mp hk
    cases hfind : s.videoFrames[lower_bound s.videoFrames (lookupKey s time)]? with
    | none =>
      have := lower_bound_none.mp hfind g hg
      omega
    | some f =>
      obtain ⟨_, h2, _⟩ := lower_bound_some hs hfind
      rw [getVideoFrame_of_some hfind]
      exact ⟨rfl, h2⟩
  · intro hle
    cases hfind : s.videoFrames[lower_bound s.videoFrames (lookupKey s time)]? with
    | none => rw [getVideoFrame_of_none hfind]
    | some f =>
      obtain ⟨_, h2, _⟩ := lower_bound_some hs hfind
      rw [getVideoFrame_of_some hfind]
      exact le_trans hle h2

/-- C11 (witness): frames at keys 10 and 20, `lastViewedFrame = 10`, timebase 1: a
lookup at time 15 does not move `lastViewedFrame` back. -/
theorem lastViewedFrame_after_operation_witness :
    keysAscending (sampleFifo [10, 20] 10 false 1 1).videoFrames
      ∧ (sampleFifo [10, 20] 10 false 1 1).lastViewedFrame
          ≤ (getVideoFrame (sampleFifo [10, 20] 10 false 1 1)
              (Double.finite 15)).2.lastViewedFrame := by
  have hk : lookupKey (sampleFifo [10, 20] 10 false 1 1) (Double.finite 15) = 15 := by
    simpa using lookupKey_timebase_one_intCast (sampleFifo [10, 20] 10 false 1 1) 15 rfl
      (by norm_num)
  exact ⟨by decide,
    (lastViewedFrame_after_operation (sampleFifo [10, 20] 10 false 1 1) Image.null 0 0
      (Double.finite 15) (by decide)).2.2.2.2.2.2.2 (by rw [hk]; decide)⟩

/-- C12 (counterexample): frames at keys 10 and 20, timebase 1, `lastViewedFrame = -1`,
and the non-decreasing times 15 and `10^19` (both binary64 numbers). The first call sets
`lastViewedFrame` to 20. The second product, `10^19`, does not fit `int64_t`: the
conversion gives `INT64_MIN`, the search starts below every key, finds key 10 and moves
`lastViewedFrame` back to 10. -/
theorem getVideoFrame_out_of_range_counterexample :
    0 < (sampleFifo [10, 20] (-1) false 1 1).settings.timebase
      ∧ (sampleFifo [10, 20] (-1) false 1 1).lastViewedFrame = -1
      ∧ (∀ k ∈ storedKeys (sampleFifo [10, 20] (-1) false 1 1), 0 ≤ k)
      ∧ IsBinary64 15
      ∧ IsBinary64 (10 ^ 19)
      ∧ Double.le (Double.finite 15) (Double.finite (10 ^ 19)) = true
      ∧ (getVideoFrames (sampleFifo [10, 20] (-1) false 1 1)
            [Double.finite 15]).lastViewedFrame = 20
      ∧ (getVideoFrame
            (getVideoFrames (sampleFifo [10, 20] (-1) false 1 1) [Double.finite 15])
            (Double.finite (10 ^ 19))).2.lastViewedFrame = 10 := by
  have hb15 : IsBinary64 15 := by
    simpa using isBinary64_intCast 15 (by norm_num)
  have hbig : IsBinary64 (10 ^ 19) :=
    isBinary64_of_eq _ 19073486328125 19 (by norm_num) (by norm_num) (by norm_num)
      (by norm_num)
  have hk15 : lookupKey (sampleFifo [10, 20] (-1) false 1 1) (Double.finite 15) = 15 := by
    simpa using lookupKey_timebase_one_intCast (sampleFifo [10, 20] (-1) false 1 1) 15 rfl
      (by norm_num)
  have hfirst : getVideoFrames (sampleFifo [10, 20] (-1) false 1 1) [Double.finite 15]
      = sampleFifo [10, 20] 20 false 1 1 := by
    simp only [getVideoFrames]
    unfold getVideoFrame
    rw [hk15]
    simp [sampleFifo, lower_bound]
  have htr : truncate ((10 : ℚ) ^ 19) = 10 ^ 19 := by
    have := truncate_intCast (10 ^ 19)
    simpa using this
  have hkbig : lookupKey (sampleFifo [10, 20] 20 false 1 1) (Double.finite (10 ^ 19))
      = INT64_MIN :=
    lookupKey_timebase_one_too_large _ _ rfl hbig (by rw [htr]; norm_num)
  have hlb : lower_bound (sampleFifo [10, 20] 20 false 1 1).videoFrames INT64_MIN = 0 := by
    apply lower_bound_eq_zero
    intro g hg
    simp only [sampleFifo, List.map_cons, List.map_nil, List.mem_cons, List.mem_singleton,
      List.not_mem_nil, or_false] at hg
    rcases hg with rfl | rfl <;> norm_num [INT64_MIN]
  have hfound : (sampleFifo [10, 20] 20 false 1 1).videoFrames[lower_bound
      (sampleFifo [10, 20] 20 false 1 1).videoFrames
      (lookupKey (sampleFifo [10, 20] 20 false 1 1) (Double.finite (10 ^ 19)))]?
      = some (10, sampleImage 10) := by
    rw [hkbig, hlb]
    rfl
  refine ⟨by decide, rfl, by decide, hb15, hbig, ?_, ?_, ?_⟩
  · simp only [Double.le, decide_eq_true_eq]
    norm_num
  · rw [hfirst]
    rfl
  · rw [hfirst, getVideoFrame_of_some hfound]

/-- C12 (amended): on a buffer with a positive timebase, `lastViewedFrame = -1` and no
negative stored key, in every run of `getVideoFrame` calls with non-decreasing times
(and no other operation in between) for which every product `time*T` has a defined
conversion to `int64_t` (it is finite and its truncation fits), the stored frames stay
the same and `lastViewedFrame` after each call is at least its value before that
call. -/
theorem getVideoFrame_nondecreasing_times (s : VideoFifo) (times : List Double)
    (hs : keysAscending s.videoFrames) (hT : 0 < s.settings.timebase)
    (hinit : s.lastViewedFrame = -1) (hkeys : ∀ k ∈ storedKeys s, 0 ≤ k)
    (htimes : times.Pairwise (fun a b => Double.le a b = true))
    (hrange : ∀ t ∈ times,
      InInt64Range (Double.mul t (Double.ofInt s.settings.timebase))) :
    ∀ (before after : List Double) (t : Double), times = before ++ t :: after →
      (getVideoFrames s before).videoFrames = s.videoFrames
      ∧ (getVideoFrames s before).lastViewedFrame
          ≤ (getVideoFrame (getVideoFrames s before) t).2.lastViewedFrame := by
  intro before after t hsplit
  have hkeysorted : times.Pairwise (fun a b => lookupKey s a ≤ lookupKey s b) :=
    htimes.imp_of_mem (fun ha hb hab => lookupKey_mono s hT hab (hrange _ ha) (hrange _ hb))
  have hinv : ∀ t' ∈ before ++ t :: after, ∀ g ∈ s.videoFrames,
      lookupKey s t' ≤ g.1 → s.lastViewedFrame ≤ g.1 := by
    intro t' _ g hg _
    have := hkeys g.1 (mem_storedKeys.mpr ⟨g, hg, rfl⟩)
    omega
  obtain ⟨hfr, hset, hrun⟩ :=
    getVideoFrames_run before s s (t :: after) rfl rfl hs (by rw [← hsplit]; exact hkeysorted)
      hinv
  refine ⟨hfr, ?_⟩
  have hkey : ∀ t', lookupKey (getVideoFrames s before) t' = lookupKey s t' :=
    lookupKey_congr hset
  have hafter : ∀ t' ∈ after, lookupKey s t ≤ lookupKey s t' := by
    rw [hsplit] at hkeysorted
    have := (List.pairwise_append.mp hkeysorted).2.1
    exact (List.pairwise_cons.mp this).1
  exact (@getVideoFrame_step (getVideoFrames s before) t after
    (by rw [hfr]; exact hs)
    (by intro t' ht'; rw [hkey, hkey]; exact hafter t' ht')
    (by
      intro t' ht' g hg hc
      rw [hfr] at hg
      rw [hkey] at hc
      exact hrun t' ht' g hg hc)).1

/-- C12 (witness): frames at keys 10, 20, 30, timebase 1, `lastViewedFrame = -1`, and
the times 5, 15, 15, 40: the third call does not decrease `lastViewedFrame`. -/
theorem getVideoFrame_nondecreasing_times_witness :
    keysAscending (sampleFifo [10, 20, 30] (-1) false 1 1).videoFrames
      ∧ 0 < (sampleFifo [10, 20, 30] (-1) false 1 1).settings.timebase
      ∧ (sampleFifo [10, 20, 30] (-1) false 1 1).lastViewedFrame = -1
      ∧ (getVideoFrames (sampleFifo [10, 20, 30] (-1) false 1 1)
            [Double.finite 5, Double.finite 15]).lastViewedFrame
          ≤ (getVideoFrame
              (getVideoFrames (sampleFifo [10, 20, 30] (-1) false 1 1)
                [Double.finite 5, Double.finite 15])
              (Double.finite 15)).2.lastViewedFrame := by
  have hrange : ∀ t ∈ [Double.finite 5, Double.finite 15, Double.finite 15, Double.finite 40],
      InInt64Range (Double.mul t
        (Double.ofInt (sampleFifo [10, 20, 30] (-1) false 1 1).settings.timebase)) := by
    intro t ht
    simp only [List.mem_cons, List.mem_singleton, List.not_mem_nil, or_false] at ht
    rcases ht with rfl | rfl | rfl | rfl
    · simpa using inInt64Range_timebase_one_intCast
        (sampleFifo [10, 20, 30] (-1) false 1 1) 5 rfl (by norm_num)
    · simpa using inInt64Range_timebase_one_intCast
        (sampleFifo [10, 20, 30] (-1) false 1 1) 15 rfl (by norm_num)
    · simpa using inInt64Range_timebase_one_intCast
        (sampleFifo [10, 20, 30] (-1) false 1 1) 15 rfl (by norm_num)
    · simpa using inInt64Range_timebase_one_intCast
        (sampleFifo [10, 20, 30] (-1) false 1 1) 40 rfl (by norm_num)
  exact ⟨by decide, by decide, rfl,
    ((getVideoFrame_nondecreasing_times (sampleFifo [10, 20, 30] (-1) false 1 1)
      [Double.finite 5, Double.finite 15, Double.finite 15, Double.finite 40]
      (by decide) (by decide) rfl (by decide) (by simp [Double.le]; norm_num) hrange)
      [Double.finite 5, Double.finite 15] [Double.finite 40] (Double.finite 15) rfl).2⟩

/-- C13: if no stored key is smaller than `K`, then `pushVideoFrame (image, K)` followed
by `popVideoFrame ()` returns exactly `(K, image)`; and if the buffer was empty or held
only a frame at `K` before the push, it is empty afterwards. -/
theorem push_then_pop (s : VideoFifo) (image : Image) (K : Int)
    (hK : ∀ k ∈ storedKeys s, K ≤ k) :
    (popVideoFrame (pushVideoFrame s image K)).1 = (K, image)
    ∧ (s.videoFrames = [] →
        (popVideoFrame (pushVideoFrame s image K)).2.videoFrames = [])
    ∧ (∀ old, s.videoFrames = [(K, old)] →
        (popVideoFrame (pushVideoFrame s image K)).2.videoFrames = []) := by
  obtain ⟨rest, hins, hnil, hone⟩ := insertOrAssign_of_le K image
    (fun g hg => hK g.1 (mem_storedKeys.mpr ⟨g, hg, rfl⟩))
  have hpop := popVideoFrame_cons (pushVideoFrame s image K) (K, image) rest hins
  rw [hpop]
  refine ⟨rfl, ?_, ?_⟩
  · intro h
    exact hnil h
  · intro old h
    exact hone old h

/-- C13 (witness): pushing key 5 into a buffer holding the keys 5 and 9, then popping. -/
theorem push_then_pop_witness :
    (∀ k ∈ storedKeys (sampleFifo [5, 9] (-1) false 1 1), (5 : Int) ≤ k)
      ∧ (popVideoFrame (pushVideoFrame (sampleFifo [5, 9] (-1) false 1 1)
            (sampleImage 77) 5)).1 = (5, sampleImage 77) :=
  ⟨by decide,
    (push_then_pop (sampleFifo [5, 9] (-1) false 1 1) (sampleImage 77) 5 (by decide)).1⟩

/-- C14: on a non-empty buffer `popVideoFrame ()` returns the stored (key, image) pair
with the lowest key, the key `getLowestTimeCode ()` reported before the call; exactly
that frame is removed, so `size ()` decreases by one and every other frame is unchanged;
`lastViewedFrame` is unchanged. On the empty buffer it returns the empty pair (key 0,
null image) and leaves the state unchanged. -/
theorem popVideoFrame_spec (s : VideoFifo) (hs : keysAscending s.videoFrames) :
    (s.videoFrames ≠ [] →
        IsLowestFrame s (popVideoFrame s).1
        ∧ (popVideoFrame s).1.1 = getLowestTimeCode s
        ∧ (popVideoFrame s).2.videoFrames
            = s.videoFrames.filter (fun g => decide (g.1 ≠ (popVideoFrame s).1.1))
        ∧ size (popVideoFrame s).2 + 1 = size s
        ∧ (popVideoFrame s).2.lastViewedFrame = s.lastViewedFrame
        ∧ (popVideoFrame s).2.settings = s.settings
        ∧ (popVideoFrame s).2.reverse = s.reverse)
    ∧ (s.videoFrames = [] → popVideoFrame s = ((0, Image.null), s)) := by
  refine ⟨?_, popVideoFrame_nil s⟩
  intro hne
  cases hframes : s.videoFrames with
  | nil => exact absurd hframes hne
  | cons a rest =>
    rw [hframes] at hs
    rw [popVideoFrame_cons s a rest hframes, getLowestTimeCode_cons s a rest hframes]
    refine ⟨⟨?_, ?_⟩, rfl, (filter_ne_head hs).symm, ?_, rfl, rfl, rfl⟩
    · simp [hframes]
    · simp only [hframes]
      exact head_le_of_ascending hs
    · simp [size, hframes]

/-- C14 (witness): popping from a buffer holding the keys 10, 20, 30 returns key 10. -/
theorem popVideoFrame_spec_witness :
    keysAscending (sampleFifo [10, 20, 30] (-1) false 1 1).videoFrames
      ∧ (popVideoFrame (sampleFifo [10, 20, 30] (-1) false 1 1)).1.1
          = getLowestTimeCode (sampleFifo [10, 20, 30] (-1) false 1 1) :=
  ⟨by decide,
    ((popVideoFrame_spec (sampleFifo [10, 20, 30] (-1) false 1 1) (by decide)).1
      (by decide)).2.1⟩

/-- C15: after `pushVideoFrame (image, K)` the stored keys are the previous keys
together with `K`; the frame stored at `K` is `(K, image)` and no other frame has key
`K`; the frames at other keys are exactly the previous ones; `size ()` grows by one if
`K` was absent and is unchanged if it was present; `lastViewedFrame` is unchanged. -/
theorem pushVideoFrame_spec (s : VideoFifo) (image : Image) (K : Int)
    (hs : keysAscending s.videoFrames) :
    (∀ k, k ∈ storedKeys (pushVideoFrame s image K) ↔ k = K ∨ k ∈ storedKeys s)
    ∧ (K, image) ∈ (pushVideoFrame s image K).videoFrames
    ∧ (∀ f ∈ (pushVideoFrame s image K).videoFrames, f.1 = K → f = (K, image))
    ∧ (∀ f : Frame, f.1 ≠ K →
        (f ∈ (pushVideoFrame s image K).videoFrames ↔ f ∈ s.videoFrames))
    ∧ (K ∉ storedKeys s → size (pushVideoFrame s image K) = size s + 1)
    ∧ (K ∈ storedKeys s → size (pushVideoFrame s image K) = size s)
    ∧ (pushVideoFrame s image K).lastViewedFrame = s.lastViewedFrame
    ∧ (pushVideoFrame s image K).settings = s.settings
    ∧ (pushVideoFrame s image K).reverse = s.reverse := by
  have hmem := mem_insertOrAssign hs K image
  have hlen := length_insertOrAssign hs K image
  refine ⟨?_, ?_, ?_, ?_, ?_, ?_, rfl, rfl, rfl⟩
  · intro k
    constructor
    · intro hk
      obtain ⟨f, hf, rfl⟩ := mem_storedKeys.mp hk
      rcases (hmem f).mp hf with rfl | ⟨hf, _⟩
      · exact Or.inl rfl
      · exact Or.inr (mem_storedKeys.mpr ⟨f, hf, rfl⟩)
    · rintro (rfl | hk)
      · exact mem_storedKeys.mpr ⟨(k, image), (hmem _).mpr (Or.inl rfl), rfl⟩
      · obtain ⟨f, hf, rfl⟩ := mem_storedKeys.mp hk
        by_cases hfK : f.1 = K
        · exact mem_storedKeys.mpr ⟨(K, image), (hmem _).mpr (Or.inl rfl), hfK.symm⟩
        · exact mem_storedKeys.mpr ⟨f, (hmem f).mpr (Or.inr ⟨hf, hfK⟩), rfl⟩
  · exact (hmem _).mpr (Or.inl rfl)
  · intro f hf hfK
    rcases (hmem f).mp hf with h | ⟨_, hne⟩
    · exact h
    · exact absurd hfK hne
  · intro f hne
    constructor
    · intro hf
      rcases (hmem f).mp hf with rfl | ⟨hf, _⟩
      · exact absurd rfl hne
      · exact hf
    · intro hf
      exact (hmem f).mpr (Or.inr ⟨hf, hne⟩)
  · intro habsent
    simp only [size, pushVideoFrame, hlen]
    exact if_neg habsent
  · intro hpresent
    simp only [size, pushVideoFrame, hlen]
    exact if_pos hpresent

/-- C15 (witness): pushing key 20 again into a buffer holding the keys 10, 20, 30 keeps
the size. -/
theorem pushVideoFrame_spec_witness :
    keysAscending (sampleFifo [10, 20, 30] (-1) false 1 1).videoFrames
      ∧ size (pushVideoFrame (sampleFifo [10, 20, 30] (-1) false 1 1) (sampleImage 77) 20)
          = size (sampleFifo [10, 20, 30] (-1) false 1 1) :=
  ⟨by decide,
    (pushVideoFrame_spec (sampleFifo [10, 20, 30] (-1) false 1 1) (sampleImage 77) 20
      (by decide)).2.2.2.2.2.1 (by decide)⟩

/-- C16: after `clear ()` the size is 0, `getLowestTimeCode ()` and
`getHighestTimeCode ()` are 0, `getNumAvailableFrames ()` is 0, `lastViewedFrame` is -1,
`getVideoFrame (t)` returns the empty pair and `getFrameCountForTime (t)` returns -1 for
every `t`, and the settings and the reverse flag are unchanged. -/
theorem clear_spec (s : VideoFifo) (t : Double) :
    size (clear s) = 0
    ∧ getLowestTimeCode (clear s) = 0
    ∧ getHighestTimeCode (clear s) = 0
    ∧ getNumAvailableFrames (clear s) = 0
    ∧ (clear s).lastViewedFrame = -1
    ∧ (getVideoFrame (clear s) t).1 = (0, Image.null)
    ∧ getFrameCountForTime (clear s) t = -1
    ∧ (clear s).settings = s.settings
    ∧ (clear s).reverse = s.reverse := by
  refine ⟨rfl, rfl, rfl, ?_, rfl, ?_, ?_, rfl, rfl⟩
  · simp [getNumAvailableFrames, clear, lower_bound, toInt, INT_MAX]
  · simp [getVideoFrame, clear, lower_bound]
  · simp [getFrameCountForTime, clear, lower_bound]

/-- C17: on a non-empty buffer `getLowestTimeCode ()` is the minimum stored key and
`getHighestTimeCode ()` the maximum stored key, so the first is at most the second, with
equality exactly when one frame is stored; on the empty buffer both return 0. -/
theorem timeCode_spec (s : VideoFifo) (hs : keysAscending s.videoFrames) :
    (s.videoFrames ≠ [] →
        getLowestTimeCode s ∈ storedKeys s
        ∧ (∀ k ∈ storedKeys s, getLowestTimeCode s ≤ k)
        ∧ getHighestTimeCode s ∈ storedKeys s
        ∧ (∀ k ∈ storedKeys s, k ≤ getHighestTimeCode s)
        ∧ getLowestTimeCode s ≤ getHighestTimeCode s
        ∧ (getLowestTimeCode s = getHighestTimeCode s ↔ size s = 1))
    ∧ (s.videoFrames = [] → getLowestTimeCode s = 0 ∧ getHighestTimeCode s = 0) := by
  constructor
  · intro hne
    cases hframes : s.videoFrames with
    | nil => exact absurd hframes hne
    | cons a rest =>
      rcases List.eq_nil_or_concat s.videoFrames with hnil | ⟨init, z, hconcat⟩
      · exact absurd hnil hne
      · have hconcat2 : s.videoFrames = init ++ [z] := by simpa using hconcat
        have hlow := getLowestTimeCode_cons s a rest hframes
        have hhigh := getHighestTimeCode_concat s init z hconcat2
        have hs1 := hs
        have hs2 := hs
        rw [hframes] at hs1
        rw [hconcat2] at hs2
        have ha_mem : a ∈ s.videoFrames := by rw [hframes]; exact List.mem_cons_self _ _
        have hz_mem : z ∈ s.videoFrames := by rw [hconcat2]; simp
        have hmin : ∀ g ∈ s.videoFrames, a.1 ≤ g.1 := by
          intro g hg
          rw [hframes] at hg
          exact head_le_of_ascending hs1 g hg
        have hmax : ∀ g ∈ s.videoFrames, g.1 ≤ z.1 := by
          intro g hg
          rw [hconcat2] at hg
          exact le_last_of_ascending hs2 g hg
        rw [hlow, hhigh]
        refine ⟨mem_storedKeys.mpr ⟨a, ha_mem, rfl⟩, ?_,
          mem_storedKeys.mpr ⟨z, hz_mem, rfl⟩, ?_, hmin z hz_mem, ?_⟩
        · intro k hk
          obtain ⟨g, hg, rfl⟩ := mem_storedKeys.mp hk
          exact hmin g hg
        · intro k hk
          obtain ⟨g, hg, rfl⟩ := mem_storedKeys.mp hk
          exact hmax g hg
        · constructor
          · intro heq
            -- every entry after the first has a larger key than the last: there is none
            cases hrest : rest with
            | nil => simp [size, hframes, hrest]
            | cons b more =>
              exfalso
              obtain ⟨ha, _⟩ := keysAscending_cons.mp hs1
              have hb : b ∈ rest := by rw [hrest]; exact List.mem_cons_self _ _
              have h1 := ha b hb
              have h2 := hmax b (by rw [hframes]; exact List.mem_cons_of_mem _ hb)
              omega
          · intro hsize
            have hrest : rest = [] := by
              simp only [size, hframes, List.length_cons] at hsize
              exact List.length_eq_zero.mp (by omega)
            have hza : z = a := by
              have : z ∈ a :: rest := by rw [← hframes]; exact hz_mem
              rw [hrest] at this
              simpa using this
            rw [hza]
  · intro hnil
    unfold getLowestTimeCode getHighestTimeCode
    simp [hnil]

/-- C17 (witness): a buffer holding the keys 10, 20, 30. -/
theorem timeCode_spec_witness :
    keysAscending (sampleFifo [10, 20, 30] (-1) false 1 1).videoFrames
      ∧ getLowestTimeCode (sampleFifo [10, 20, 30] (-1) false 1 1)
          ≤ getHighestTimeCode (sampleFifo [10, 20, 30] (-1) false 1 1) :=
  ⟨by decide,
    ((timeCode_spec (sampleFifo [10, 20, 30] (-1) false 1 1) (by decide)).1
      (by decide)).2.2.2.2.1⟩

/-- C18: the stored frames are strictly ascending by key (so no key occurs twice) in
the empty buffer, and every operation that changes the state keeps them so:
`pushVideoFrame`, `popVideoFrame`, `getVideoFrame`, `getOldestFrameForRecycling` (in
either direction), `clear` and `clearFramesOlderThan`. -/
theorem keysAscending_preserved (s : VideoFifo) (image : Image) (key count : Int)
    (time : Double) (hs : keysAscending s.videoFrames) :
    keysAscending ([] : List Frame)
    ∧ keysAscending (pushVideoFrame s image key).videoFrames
    ∧ keysAscending (popVideoFrame s).2.videoFrames
    ∧ keysAscending (getVideoFrame s time).2.videoFrames
    ∧ keysAscending (getOldestFrameForRecycling s).2.videoFrames
    ∧ keysAscending (getOldestFrameForRecycling { s with reverse := false }).2.videoFrames
    ∧ keysAscending (getOldestFrameForRecycling { s with reverse := true }).2.videoFrames
    ∧ keysAscending (clear s).videoFrames
    ∧ keysAscending (clearFramesOlderThan s count).videoFrames := by
  have hnil : keysAscending ([] : List Frame) := by simp [keysAscending]
  refine ⟨hnil, keysAscending_insertOrAssign hs key image, ?_, ?_,
    keysAscending_of_sublist (recycling_sublist s) hs,
    keysAscending_of_sublist (recycling_sublist _) hs,
    keysAscending_of_sublist (recycling_sublist _) hs, hnil, ?_⟩
  · cases hframes : s.videoFrames with
    | nil => rw [popVideoFrame_nil s hframes, hframes]; exact hnil
    | cons a rest =>
      rw [popVideoFrame_cons s a rest hframes]
      rw [hframes] at hs
      exact (keysAscending_cons.mp hs).2
  · rw [(getVideoFrame_frames s time).1]
    exact hs
  · rw [clearFramesOlderThan_frames]
    split
    · exact hs
    · exact keysAscending_of_sublist (List.drop_sublist _ _) hs

/-- C18 (witness): pushing key 20 into a buffer holding the keys 10 and 30. -/
theorem keysAscending_preserved_witness :
    keysAscending (sampleFifo [10, 30] (-1) false 1 1).videoFrames
      ∧ keysAscending
          (pushVideoFrame (sampleFifo [10, 30] (-1) false 1 1) (sampleImage 20) 20).videoFrames :=
  ⟨by decide,
    (keysAscending_preserved (sampleFifo [10, 30] (-1) false 1 1) (sampleImage 20) 20 0
      (Double.finite 0) (by decide)).2.1⟩

/-- C19: for a count that is not a stored key, `clearFramesOlderThan (count)` on a
non-empty buffer removes every frame except the one with the highest key, which stays
with its image; on the empty buffer it does nothing; `lastViewedFrame` is unchanged. -/
theorem clearFramesOlderThan_absent_key (s : VideoFifo) (count : Int)
    (hs : keysAscending s.videoFrames) (hc : count ∉ storedKeys s) :
    (s.videoFrames ≠ [] →
        ∃ f, IsHighestFrame s f ∧ (clearFramesOlderThan s count).videoFrames = [f])
    ∧ (s.videoFrames = [] → clearFramesOlderThan s count = s)
    ∧ (clearFramesOlderThan s count).lastViewedFrame = s.lastViewedFrame := by
  have hfind : find s.videoFrames count = s.videoFrames.length :=
    find_of_absent (fun g hg hgc => hc (mem_storedKeys.mpr ⟨g, hg, hgc⟩))
  refine ⟨?_, ?_, ?_⟩
  · intro hne
    rcases List.eq_nil_or_concat s.videoFrames with hnil | ⟨init, z, hconcat⟩
    · exact absurd hnil hne
    · have hframes : s.videoFrames = init ++ [z] := by simpa using hconcat
      refine ⟨z, ⟨by rw [hframes]; simp, ?_⟩, ?_⟩
      · rw [hframes] at hs ⊢
        exact le_last_of_ascending hs
      · rw [clearFramesOlderThan_frames, hfind, hframes]
        simp
  · intro hnil
    unfold clearFramesOlderThan
    simp [hnil, find]
  · unfold clearFramesOlderThan
    simp only
    split <;> rfl

/-- C19 (witness): frames at keys 10, 20, 30 and the absent count 15 leave key 30 only. -/
theorem clearFramesOlderThan_absent_key_witness :
    keysAscending (sampleFifo [10, 20, 30] (-1) false 1 1).videoFrames
      ∧ 15 ∉ storedKeys (sampleFifo [10, 20, 30] (-1) false 1 1)
      ∧ ∃ f, IsHighestFrame (sampleFifo [10, 20, 30] (-1) false 1 1) f
          ∧ (clearFramesOlderThan (sampleFifo [10, 20, 30] (-1) false 1 1) 15).videoFrames
              = [f] :=
  ⟨by decide, by decide,
    (clearFramesOlderThan_absent_key (sampleFifo [10, 20, 30] (-1) false 1 1) 15 (by decide)
      (by decide)).1 (by decide)⟩

/-- C20 (counterexample): a forward-playing buffer holding `n = 2^31` frames at the keys
`0 .. 2^31 - 1` with `lastViewedFrame = 0`. The `n` recycling calls remove nothing, so
`size ()` is `2^31`, but `getNumAvailableFrames ()` converts that count to `int`: the
two differ. -/
theorem recycling_size_counterexample :
    (denseFifo (2 ^ 31)).reverse = false
      ∧ size (denseFifo (2 ^ 31)) = 2 ^ 31
      ∧ size (recycleTimes (2 ^ 31) (denseFifo (2 ^ 31))) = 2 ^ 31
      ∧ getNumAvailableFrames (recycleTimes (2 ^ 31) (denseFifo (2 ^ 31))) = -(2 ^ 31)
      ∧ (size (recycleTimes (2 ^ 31) (denseFifo (2 ^ 31))) : Int)
          ≠ getNumAvailableFrames (recycleTimes (2 ^ 31) (denseFifo (2 ^ 31))) := by
  have hidle : recycleTimes (2 ^ 31) (denseFifo (2 ^ 31)) = denseFifo (2 ^ 31) :=
    recycleTimes_idle _ _ rfl (denseFifo_keys _)
  have hnum : getNumAvailableFrames (denseFifo (2 ^ 31)) = -(2 ^ 31) := by
    rw [denseFifo_numAvailable _ (by norm_num)]
    norm_num [toInt]
  rw [hidle, hnum, denseFifo_size]
  refine ⟨rfl, rfl, rfl, rfl, ?_⟩
  norm_num

/-- C20 (amended): with `reverse == false`, for every state holding `n` frames with
`n < 2^31`: after `n` consecutive calls of `getOldestFrameForRecycling` the stored
frames are exactly the previous frames with key at least `lastViewedFrame` (no stored
key is below it, every such frame is still stored with its image), `size ()` equals
`getNumAvailableFrames ()`, any further calls remove nothing, and `lastViewedFrame` is
unchanged. -/
theorem recycling_drains_passed_frames (s : VideoFifo) (hs : keysAscending s.videoFrames)
    (hr : s.reverse = false) (hsize : s.videoFrames.length < 2 ^ 31) :
    (recycleTimes s.videoFrames.length s).videoFrames
        = s.videoFrames.filter (fun f => decide (s.lastViewedFrame ≤ f.1))
    ∧ (∀ k ∈ storedKeys (recycleTimes s.videoFrames.length s), s.lastViewedFrame ≤ k)
    ∧ (∀ f ∈ s.videoFrames, s.lastViewedFrame ≤ f.1 →
        f ∈ (recycleTimes s.videoFrames.length s).videoFrames)
    ∧ (size (recycleTimes s.videoFrames.length s) : Int)
        = getNumAvailableFrames (recycleTimes s.videoFrames.length s)
    ∧ (∀ m, recycleTimes m (recycleTimes s.videoFrames.length s)
        = recycleTimes s.videoFrames.length s)
    ∧ (recycleTimes s.videoFrames.length s).lastViewedFrame = s.lastViewedFrame := by
  have hrun := recycleTimes_forward s.videoFrames.length s hr
  have hmin : min s.videoFrames.length (lower_bound s.videoFrames s.lastViewedFrame)
      = lower_bound s.videoFrames s.lastViewedFrame :=
    Nat.min_eq_right (lower_bound_le_length _ _)
  rw [hmin, drop_lower_bound s.lastViewedFrame hs] at hrun
  have hall : ∀ g ∈ s.videoFrames.filter (fun f => decide (s.lastViewedFrame ≤ f.1)),
      s.lastViewedFrame ≤ g.1 := by
    intro g hg
    simpa using (List.mem_filter.mp hg).2
  have hlen : (s.videoFrames.filter (fun f => decide (s.lastViewedFrame ≤ f.1))).length
      ≤ s.videoFrames.length := List.length_filter_le _ _
  rw [hrun]
  refine ⟨rfl, ?_, ?_, ?_, ?_, rfl⟩
  · intro k hk
    obtain ⟨g, hg, rfl⟩ := mem_storedKeys.mp hk
    exact hall g hg
  · intro f hf hge
    exact List.mem_filter.mpr ⟨hf, by simpa using hge⟩
  · unfold getNumAvailableFrames size
    simp only
    rw [lower_bound_eq_zero hall]
    have hlt : ((s.videoFrames.filter
        (fun f => decide (s.lastViewedFrame ≤ f.1))).length : Int) < 2 ^ 31 := by
      have : (s.videoFrames.filter (fun f => decide (s.lastViewedFrame ≤ f.1))).length
          < 2 ^ 31 := lt_of_le_of_lt hlen hsize
      exact_mod_cast this
    split
    · rename_i h0
      rw [← h0]
      simp [toInt, INT_MAX]
    · rw [Nat.cast_zero, sub_zero, toInt_of_lt (by omega) hlt]
  · intro m
    exact recycleTimes_idle m _ hr hall

/-- C20 (witness): frames at keys 10, 20, 30, 40 with `lastViewedFrame = 30`: after four
calls the keys 30 and 40 remain and both counts agree. -/
theorem recycling_drains_passed_frames_witness :
    keysAscending (sampleFifo [10, 20, 30, 40] 30 false 1 1).videoFrames
      ∧ (sampleFifo [10, 20, 30, 40] 30 false 1 1).reverse = false
      ∧ (sampleFifo [10, 20, 30, 40] 30 false 1 1).videoFrames.length < 2 ^ 31
      ∧ (size (recycleTimes (sampleFifo [10, 20, 30, 40] 30 false 1 1).videoFrames.length
            (sampleFifo [10, 20, 30, 40] 30 false 1 1)) : Int)
          = getNumAvailableFrames
              (recycleTimes (sampleFifo [10, 20, 30, 40] 30 false 1 1).videoFrames.length
                (sampleFifo [10, 20, 30, 40] 30 false 1 1)) :=
  ⟨by decide, rfl, by decide,
    (recycling_drains_passed_frames (sampleFifo [10, 20, 30, 40] 30 false 1 1) (by decide)
      rfl (by decide)).2.2.2.1⟩

end foleys
